import Mathlib

/-!
Verification of the citation-enforcement pipeline of the IKMS multi-agent
RAG service.

Python strings are modelled as `List Char` (ASCII fragment of `str`).  The
regular expressions used by the source are fixed and simple, so each regex
operation is embedded as a direct recursive scanner:

* `re.findall(r"\[C(\d+)\]", s)`   -> `findCitations`
* `re.search(r"\[C(\d+)\]", s)`    -> `hasCitation`
* `re.split(r'(?<=[.!?])\s+', s)`  -> `pySplit`
* `re.search(r"\b(verb|...)\b", s)`-> `containsVerbCS` / `containsVerbCI`
* `s.strip()`                      -> `pyStrip`
* `len(s.split())`                 -> `wordCount`
* `"sep".join(xs)`                 -> `joinSep`
* `needle in s`                    -> `containsSub`
-/

/-- Python `\s` on the ASCII fragment: space, tab, newline, vertical tab,
form feed, carriage return. -/
def isPySpace (c : Char) : Bool :=
  c = ' ' || c = '\t' || c = '\n' || c = '\x0b' || c = '\x0c' || c = '\r'

/-- ASCII decimal digit, the characters matched by `\d` (and by
`str.isdigit` on the ASCII fragment). -/
def isDigitChar (c : Char) : Bool :=
  '0' ≤ c && c ≤ '9'

/-- Sentence terminators used by the splitting regex `(?<=[.!?])\s+`. -/
def isTerm (c : Char) : Bool :=
  c = '.' || c = '!' || c = '?'

/-- Python `\w` on the ASCII fragment (letters, digits, underscore);
determines the `\b` word boundaries. -/
def isWordChar (c : Char) : Bool :=
  ('a' ≤ c && c ≤ 'z') || ('A' ≤ c && c ≤ 'Z') || isDigitChar c || c = '_'

/-- ASCII lowercasing, as performed on the text by a case-insensitive
regex match. -/
def lowerChar (c : Char) : Char :=
  if 'A' ≤ c && c ≤ 'Z' then Char.ofNat (c.toNat + 32) else c

/-- Python substring test `needle in hay`. -/
def containsSub (needle : List Char) : List Char → Bool
  | [] => needle.isPrefixOf ([] : List Char)
  | c :: rest => needle.isPrefixOf (c :: rest) || containsSub needle rest

/-- True when the list starts with a closing bracket. -/
def headIsClose : List Char → Bool
  | c :: _ => c = ']'
  | [] => false

/-- Attempt to match the regex `\[C(\d+)\]` at the very start of the list,
returning the captured digit group. -/
def citationHere : List Char → Option (List Char)
  | a :: b :: rest =>
    if a = '[' && b = 'C' then
      let ds := rest.takeWhile isDigitChar
      if ds.isEmpty then none
      else if headIsClose (rest.dropWhile isDigitChar) then some ds
      else none
    else none
  | _ => none

/-- Embedding of `re.findall(r"\[C(\d+)\]", s)`: the captured digit groups
of all matches, in order.  `re.findall` scans left to right and resumes
after each match; since every character of a match after its opening `[`
is `C`, a digit or `]`, no match can begin strictly inside another, so
testing every position (as done here) yields exactly the same match list.
`findCitationsScan` below is the literal resume-after-the-match scanner and
is proved equal to this function. -/
def findCitations : List Char → List (List Char)
  | [] => []
  | c :: rest =>
    match citationHere (c :: rest) with
    | some ds => ds :: findCitations rest
    | none => findCitations rest

/-- Literal embedding of the `re.findall` scanning strategy: try to match
at the current position; on success emit the captured group and resume
right after the match, otherwise advance one character. -/
def findCitationsScan : List Char → List (List Char)
  | [] => []
  | a :: [] => if a = '[' then [] else findCitationsScan []
  | a :: b :: rest2 =>
    if a = '[' then
      if b = 'C' then
        if (rest2.takeWhile isDigitChar).isEmpty then findCitationsScan (b :: rest2)
        else if headIsClose (rest2.dropWhile isDigitChar) then
          rest2.takeWhile isDigitChar :: findCitationsScan (rest2.dropWhile isDigitChar).tail
        else findCitationsScan (b :: rest2)
      else findCitationsScan (b :: rest2)
    else findCitationsScan (b :: rest2)
termination_by l => l.length
decreasing_by
all_goals simp_wf
all_goals try omega
all_goals
  (have h1 := congrArg List.length (List.takeWhile_append_dropWhile (p := isDigitChar) (l := rest2))
   rw [List.length_append] at h1
   have h2 : (rest2.dropWhile isDigitChar).tail.length ≤ (rest2.dropWhile isDigitChar).length := by
     cases rest2.dropWhile isDigitChar <;> simp
   omega)

/-- Embedding of the boolean use `re.search(r"\[C(\d+)\]", s)`. -/
def hasCitation (l : List Char) : Bool :=
  !(findCitations l).isEmpty

/-- True when the accumulator (the reversed text consumed so far) ends,
in original order, with a sentence terminator: the lookbehind check of
`(?<=[.!?])`. -/
def headIsTerm : List Char → Bool
  | c :: _ => isTerm c
  | [] => false

mutual

/-- Embedding of `re.split(r'(?<=[.!?])\s+', s)`: walk the text keeping the
reversed current fragment in `acc`; a whitespace character preceded by a
terminator closes the fragment, after which `sentSplitSkip` consumes the
rest of the (maximal) whitespace run. -/
def sentSplitGo (acc : List Char) : List Char → List (List Char)
  | [] => [acc.reverse]
  | c :: rest =>
    if isPySpace c && headIsTerm acc then acc.reverse :: sentSplitSkip rest
    else sentSplitGo (c :: acc) rest

/-- Consume the remaining whitespace of a split match, then start the next
fragment. -/
def sentSplitSkip : List Char → List (List Char)
  | [] => [[]]
  | c :: rest => if isPySpace c then sentSplitSkip rest else sentSplitGo [c] rest

end

/-- Embedding of `re.split(r'(?<=[.!?])\s+', s)`. -/
def pySplit (l : List Char) : List (List Char) :=
  sentSplitGo [] l

/-- Embedding of Python `str.strip()`. -/
def pyStrip (l : List Char) : List Char :=
  ((l.dropWhile isPySpace).reverse.dropWhile isPySpace).reverse

/-- Count the maximal runs of non-whitespace characters; `inWord` records
whether the previous character was part of a word. -/
def wordCountGo (inWord : Bool) : List Char → Nat
  | [] => 0
  | c :: rest =>
    if isPySpace c then wordCountGo false rest
    else (if inWord then 0 else 1) + wordCountGo true rest

/-- Embedding of `len(s.split())`: the number of whitespace-separated
tokens of `s`. -/
def wordCount (l : List Char) : Nat :=
  wordCountGo false l

/-- The assertive verbs of the factuality heuristic, i.e. the alternatives
of the regex `\b(is|are|has|uses|supports|provides|includes|contains|requires)\b`. -/
def verbList : List (List Char) :=
  ["is", "are", "has", "uses", "supports", "provides", "includes",
   "contains", "requires"].map String.toList

/-- The `\b` condition immediately after a candidate verb occurrence. -/
def wordBoundaryAfter : List Char → Bool
  | [] => true
  | c :: _ => !isWordChar c

/-- True when one of the verbs matches at the start of `l` with a word
boundary after it. -/
def verbHere (l : List Char) : Bool :=
  verbList.any (fun v => v.isPrefixOf l && wordBoundaryAfter (l.drop v.length))

/-- Scan for a verb occurrence; `prevWord` records whether the previous
character was a word character (the `\b` condition before the verb). -/
def containsVerbGo (prevWord : Bool) : List Char → Bool
  | [] => false
  | c :: rest => (!prevWord && verbHere (c :: rest)) || containsVerbGo (isWordChar c) rest

/-- Embedding of the case-sensitive search
`re.search(r"\b(is|are|...)\b", s)` used in `agents._enforce_citations`. -/
def containsVerbCS (l : List Char) : Bool :=
  containsVerbGo false l

/-- Embedding of the case-insensitive search
`re.search(r"\b(is|are|...)\b", s, re.IGNORECASE)` used in
`qa_service._enforce_citations_on_answer`: the verbs are lower case and
ASCII lowercasing does not change word-character status, so the match is
the case-sensitive match on the lowercased text. -/
def containsVerbCI (l : List Char) : Bool :=
  containsVerbCS (l.map lowerChar)

/-- Python `s.endswith(c)` for one character. -/
def endsIn (l : List Char) (c : Char) : Bool :=
  l.getLast? = some c

/-- The trailing-terminator strip of `agents._enforce_citations`
(only a trailing period is removed). -/
def stripOneA (s : List Char) : List Char :=
  if endsIn s '.' then s.dropLast else s

/-- The trailing-terminator strip of `qa_service` (a trailing period,
exclamation mark or question mark is removed). -/
def stripOneS (s : List Char) : List Char :=
  if endsIn s '.' || endsIn s '!' || endsIn s '?' then s.dropLast else s

/-- The citation token `[C<d>]`. -/
def citToken (d : List Char) : List Char :=
  '[' :: 'C' :: (d ++ [']'])

/-- The text appended to an uncited factual sentence: `" [C<d>]."`. -/
def citTail (d : List Char) : List Char :=
  ' ' :: (citToken d ++ ['.'])

/-- Factuality test of `agents._enforce_citations`: a digit character, a
case-sensitive assertive verb, or more than 5 whitespace tokens. -/
def factualA (s : List Char) : Bool :=
  s.any isDigitChar || containsVerbCS s || decide (5 < wordCount s)

/-- Factuality test of `qa_service._enforce_citations_on_answer`: a digit
character, a case-insensitive assertive verb, or more than 5 whitespace
tokens. -/
def factualS (s : List Char) : Bool :=
  s.any isDigitChar || containsVerbCI s || decide (5 < wordCount s)

/-- Python `"sep".join(xs)`. -/
def joinSep (sep : List Char) : List (List Char) → List Char
  | [] => []
  | [x] => x
  | x :: xs => x ++ sep ++ joinSep sep xs

/-- The sentence loop of `agents._enforce_citations` (lines 66-93): strip
each fragment, drop empty ones, keep cited ones, and append the first
available citation to uncited factual ones (removing one trailing period
first). -/
def enforceLoopA (f : List Char) : List (List Char) → List (List Char)
  | [] => []
  | s :: rest =>
    let s' := pyStrip s
    if s'.isEmpty then enforceLoopA f rest
    else if hasCitation s' then s' :: enforceLoopA f rest
    else if factualA s' && !hasCitation s' then
      (stripOneA s' ++ citTail f) :: enforceLoopA f rest
    else s' :: enforceLoopA f rest

/-- The sentence loop of `qa_service._enforce_citations_on_answer`
(lines 39-55): same shape, with the case-insensitive verb test and the
three-terminator strip. -/
def enforceLoopS (f : List Char) : List (List Char) → List (List Char)
  | [] => []
  | s :: rest =>
    let s' := pyStrip s
    if s'.isEmpty then enforceLoopS f rest
    else if hasCitation s' then s' :: enforceLoopS f rest
    else if factualS s' then
      (stripOneS s' ++ citTail f) :: enforceLoopS f rest
    else s' :: enforceLoopS f rest

/-- The forced-fallback loop of `qa_service.answer_question` (lines
90-103): every uncited sentence of more than 3 whitespace tokens receives
the first available citation. -/
def forcedLoop (f : List Char) : List (List Char) → List (List Char)
  | [] => []
  | s :: rest =>
    let s' := pyStrip s
    if s'.isEmpty then forcedLoop f rest
    else if hasCitation s' then s' :: forcedLoop f rest
    else if decide (3 < wordCount s') then
      (stripOneS s' ++ citTail f) :: forcedLoop f rest
    else s' :: forcedLoop f rest

/-- The sentinel substring tested by both enforcement functions. -/
def noInfoSub : List Char :=
  "provided context does not contain information".toList

/-- The exact No-Answer Sentinel compared against by the `/qa` endpoint. -/
def noAnswerText : List Char :=
  "The provided context does not contain information to answer this question.".toList

/-- Embedding of `agents._enforce_citations(answer, context)`. -/
def enforceCitations (answer context : List Char) : List Char :=
  if containsSub noInfoSub answer then answer
  else
    match findCitations context with
    | [] => answer
    | f :: _ => joinSep [' '] (enforceLoopA f (pySplit (pyStrip answer)))

/-- Embedding of `qa_service._enforce_citations_on_answer(answer, context)`. -/
def enforceCitationsOnAnswer (answer context : List Char) : List Char :=
  if answer.isEmpty then answer
  else if containsSub noInfoSub answer then answer
  else
    match findCitations context with
    | [] => answer
    | f :: _ => joinSep [' '] (enforceLoopS f (pySplit (pyStrip answer)))

/-- Embedding of the answer post-processing of
`qa_service.answer_question` (lines 73-106): when the answer is truthy and
does not contain the sentinel substring, run the first enforcement pass;
if its result contains no citation token anywhere, run the forced
fallback with the first context citation id (the literal digit `1` when
the context has none). -/
def serviceAnswer (answer context : List Char) : List Char :=
  if !answer.isEmpty && !containsSub noInfoSub answer then
    let enforced := enforceCitationsOnAnswer answer context
    if !hasCitation enforced then
      let f := match findCitations context with
        | [] => ['1']
        | d :: _ => d
      joinSep [' '] (forcedLoop f (pySplit (pyStrip enforced)))
    else enforced
  else answer

/-- Value of a citation map entry: page, source and 120-character snippet
(`serialization.serialize_chunks_with_ids`). -/
structure CitEntry where
  page : List Char
  source : List Char
  snippet : List Char
deriving DecidableEq

/-- A retrieved chunk: `page_content` plus the `page` and `source`
metadata entries, each absent when the metadata lacks the key (the code
then uses the literal string `"unknown"`). -/
structure Doc where
  content : List Char
  page : Option (List Char)
  source : Option (List Char)
deriving DecidableEq

/-- Rendering of the `page` metadata with the `"unknown"` default. -/
def pageText (d : Doc) : List Char :=
  d.page.getD "unknown".toList

/-- Rendering of the `source` metadata with the `"unknown"` default. -/
def sourceText (d : Doc) : List Char :=
  d.source.getD "unknown".toList

/-- Decimal digit character for a value below ten. -/
def digitChar : Nat → Char
  | 0 => '0' | 1 => '1' | 2 => '2' | 3 => '3' | 4 => '4'
  | 5 => '5' | 6 => '6' | 7 => '7' | 8 => '8' | 9 => '9'
  | _ => '*'

/-- Fuel-driven decimal printer (the fuel `n+1` always suffices since a
number has at most `n+1` decimal digits). -/
def natDigitsGo : Nat → Nat → List Char → List Char
  | 0, _, acc => acc
  | fuel + 1, n, acc =>
    if n < 10 then digitChar n :: acc
    else natDigitsGo fuel (n / 10) (digitChar (n % 10) :: acc)

/-- Decimal rendering of a natural number, as Python `str(n)`. -/
def natDigits (n : Nat) : List Char :=
  natDigitsGo (n + 1) n []

/-- The chunk identifier `C<i+1>` given the 0-based index `i`. -/
def chunkId (i : Nat) : List Char :=
  'C' :: natDigits (i + 1)

/-- Rendering of one chunk into the context block:
`f"[{chunk_id}] (Page {page})\n{doc.page_content}"`. -/
def renderPart (i : Nat) (d : Doc) : List Char :=
  '[' :: (chunkId i ++ (']' :: (" (Page ".toList ++ pageText d ++ (')' :: '\n' :: d.content))))

/-- The citation-map entry built for one chunk. -/
def citEntry (d : Doc) : CitEntry :=
  ⟨pageText d, sourceText d, d.content.take 120 ++ "...".toList⟩

/-- The context parts of `serialize_chunks_with_ids` for
`enumerate(docs)` started at index `i`. -/
def serializePartsFrom (i : Nat) : List Doc → List (List Char)
  | [] => []
  | d :: rest => renderPart i d :: serializePartsFrom (i + 1) rest

/-- The citation map of `serialize_chunks_with_ids` for `enumerate(docs)`
started at index `i`; the Python dict with its insertion order is
modelled as an association list. -/
def citationMapFrom (i : Nat) : List Doc → List (List Char × CitEntry)
  | [] => []
  | d :: rest => (chunkId i, citEntry d) :: citationMapFrom (i + 1) rest

/-- Embedding of `serialization.serialize_chunks_with_ids(docs)`. -/
def serialize_chunks_with_ids (docs : List Doc) : List Char × List (List Char × CitEntry) :=
  (joinSep "\n\n".toList (serializePartsFrom 0 docs), citationMapFrom 0 docs)

/-- The dictionary produced by `run_qa_flow` as seen by the service and
endpoint layers: `answer`, `context` and `citations`, each possibly
absent. -/
structure QAResult where
  answer : Option (List Char)
  context : Option (List Char)
  citations : Option (List (List Char × CitEntry))
deriving DecidableEq

/-- The `/qa` response body (`models.QAResponse`): answer plus optional
context and citations. -/
structure QAResponse where
  answer : Option (List Char)
  context : Option (List Char)
  citations : Option (List (List Char × CitEntry))
deriving DecidableEq

/-- Embedding of the payload assembly of `api.qa_endpoint` (lines 83-98):
when the answer equals the No-Answer Sentinel exactly, the context and
citations are nulled; otherwise the fields are passed through. -/
def qaEndpointPayload (result : QAResult) : QAResponse :=
  if result.answer = some noAnswerText then
    ⟨result.answer, none, none⟩
  else
    ⟨result.answer, result.context, result.citations⟩

/-- The per-sentence transformation of `agents._enforce_citations`, applied
to an already stripped non-empty fragment. -/
def procA (f s : List Char) : List Char :=
  if hasCitation s then s
  else if factualA s && !hasCitation s then stripOneA s ++ citTail f
  else s

/-- The per-sentence transformation of
`qa_service._enforce_citations_on_answer`, applied to an already stripped
non-empty fragment. -/
def procS (f s : List Char) : List Char :=
  if hasCitation s then s
  else if factualS s then stripOneS s ++ citTail f
  else s

/-- The per-sentence transformation of the forced fallback of
`qa_service.answer_question`. -/
def procF (f s : List Char) : List Char :=
  if hasCitation s then s
  else if decide (3 < wordCount s) then stripOneS s ++ citTail f
  else s

/-- The stripped, non-empty sentence fragments of an answer, i.e. the
sentences the enforcement loops actually process. -/
def cleanFrags (a : List Char) : List (List Char) :=
  ((pySplit (pyStrip a)).map pyStrip).filter (fun s => !s.isEmpty)

/-- Decimal value of a digit string (left fold); used to invert
`natDigits`. -/
def digitsVal (l : List Char) : Nat :=
  l.foldl (fun a c => 10 * a + (c.toNat - 48)) 0

/-- Concrete answer used to exhibit the sentinel-containing edge case: the
sentinel substring surrounded by whitespace. -/
def c10Answer : List Char :=
  " provided context does not contain information. ".toList

/-- Concrete context block with one citation identifier. -/
def c10Context : List Char :=
  "[C1] x".toList

/-- True when the list ends with a sentence terminator. -/
def isTermLast (l : List Char) : Bool :=
  match l.getLast? with
  | some c => isTerm c
  | none => false

/-- Relation between adjacent characters stating that no sentence split
happens between them: not (terminator followed by whitespace). -/
def noBoundary (a b : Char) : Prop :=
  ¬(isTerm a = true ∧ isPySpace b = true)

/-- Shape of the fragments produced by the sentence splitter on stripped
non-empty input: non-empty, no surrounding whitespace, and no internal
terminator-whitespace pair. -/
def GoodFrag (t : List Char) : Prop :=
  t ≠ [] ∧ (∀ ch ∈ t.head?, isPySpace ch = false) ∧
  (∀ ch ∈ t.getLast?, isPySpace ch = false) ∧ List.Chain' noBoundary t

/-! ### Lemmas about `findCitations` -/

theorem citationHere_eq_none {a : Char} (l : List Char) (h : a ≠ '[') :
    citationHere (a :: l) = none := by
  cases l with
  | nil => rfl
  | cons b rest => simp [citationHere, h]

theorem findCitations_cons (c : Char) (l : List Char) :
    findCitations (c :: l) = (citationHere (c :: l)).toList ++ findCitations l := by
  cases h : citationHere (c :: l) <;> simp [findCitations, h]

theorem findCitations_cons_of_ne {c : Char} (l : List Char) (h : c ≠ '[') :
    findCitations (c :: l) = findCitations l := by
  rw [findCitations_cons, citationHere_eq_none l h]
  rfl

theorem findCitations_append_no_bracket {x : List Char} (y : List Char)
    (h : ∀ c ∈ x, c ≠ '[') :
    findCitations (x ++ y) = findCitations y := by
  induction x with
  | nil => rfl
  | cons a x ih =>
    rw [List.cons_append, findCitations_cons_of_ne _ (h a (by simp))]
    exact ih (fun c hc => h c (by simp [hc]))

theorem isDigitChar_ne_bracket {c : Char} (h : isDigitChar c = true) : c ≠ '[' := by
  intro heq
  subst heq
  exact absurd h (by decide)

theorem digits_takeWhile {d : List Char} (post : List Char)
    (hd : ∀ c ∈ d, isDigitChar c) :
    (d ++ ']' :: post).takeWhile isDigitChar = d := by
  induction d with
  | nil => rw [List.nil_append, List.takeWhile_cons_of_neg (by decide)]
  | cons a d ih =>
    rw [List.cons_append, List.takeWhile_cons_of_pos (by simp [hd a])]
    rw [ih (fun c hc => hd c (by simp [hc]))]

theorem digits_dropWhile {d : List Char} (post : List Char)
    (hd : ∀ c ∈ d, isDigitChar c) :
    (d ++ ']' :: post).dropWhile isDigitChar = ']' :: post := by
  induction d with
  | nil => rw [List.nil_append, List.dropWhile_cons_of_neg (by decide)]
  | cons a d ih =>
    rw [List.cons_append, List.dropWhile_cons_of_pos (by simp [hd a])]
    exact ih (fun c hc => hd c (by simp [hc]))

theorem citToken_eq (d : List Char) :
    citToken d = '[' :: 'C' :: (d ++ ']' :: []) := by
  simp [citToken]

theorem citToken_append (d post : List Char) :
    citToken d ++ post = '[' :: 'C' :: (d ++ ']' :: post) := by
  simp [citToken]

theorem citationHere_token {d : List Char} (post : List Char) (hne : d ≠ [])
    (hd : ∀ c ∈ d, isDigitChar c) :
    citationHere ('[' :: 'C' :: (d ++ ']' :: post)) = some d := by
  simp [citationHere, digits_takeWhile post hd, digits_dropWhile post hd,
    headIsClose, hne]

theorem findCitations_token {d : List Char} (post : List Char) (hne : d ≠ [])
    (hd : ∀ c ∈ d, isDigitChar c) :
    findCitations ('[' :: 'C' :: (d ++ ']' :: post)) = d :: findCitations post := by
  rw [findCitations_cons, citationHere_token post hne hd]
  show d :: findCitations ('C' :: (d ++ ']' :: post)) = d :: findCitations post
  rw [findCitations_cons_of_ne _ (by decide)]
  rw [findCitations_append_no_bracket (']' :: post)
    (fun c hc => isDigitChar_ne_bracket (hd c hc))]
  rw [findCitations_cons_of_ne _ (by decide)]

theorem citationHere_some {l ds : List Char} (h : citationHere l = some ds) :
    ds ≠ [] ∧ (∀ c ∈ ds, isDigitChar c) ∧ ∃ post, l = citToken ds ++ post := by
  match l with
  | [] => simp [citationHere] at h
  | [a] => simp [citationHere] at h
  | a :: b :: rest =>
    by_cases hab : a = '[' ∧ b = 'C'
    · obtain ⟨ha, hb⟩ := hab
      subst ha; subst hb
      simp only [citationHere] at h
      rw [if_pos (by simp)] at h
      by_cases he : (rest.takeWhile isDigitChar).isEmpty
      · rw [if_pos he] at h; exact absurd h (by simp)
      · rw [if_neg he] at h
        by_cases hc : headIsClose (rest.dropWhile isDigitChar)
        · rw [if_pos hc] at h
          have hds : rest.takeWhile isDigitChar = ds := by
            exact Option.some.inj h
          obtain ⟨r2, hr2⟩ : ∃ r2, rest.dropWhile isDigitChar = ']' :: r2 := by
            cases hdw : rest.dropWhile isDigitChar with
            | nil => rw [hdw] at hc; exact absurd hc (by simp [headIsClose])
            | cons x t =>
              rw [hdw] at hc
              simp [headIsClose] at hc
              exact ⟨t, by rw [hc]⟩
          refine ⟨?_, ?_, r2, ?_⟩
          · rw [← hds]; simpa [List.isEmpty_iff] using he
          · intro c hc'
            rw [← hds] at hc'
            exact List.mem_takeWhile_imp hc'
          · rw [citToken_append, ← hds, ← hr2, List.takeWhile_append_dropWhile]
        · rw [if_neg hc] at h; exact absurd h (by simp)
    · have : citationHere (a :: b :: rest) = none := by
        simp only [citationHere]
        rw [if_neg (by simpa [Bool.and_eq_true] using hab)]
      rw [this] at h
      exact absurd h (by simp)

theorem findCitations_sound {l d : List Char} (h : d ∈ findCitations l) :
    d ≠ [] ∧ (∀ c ∈ d, isDigitChar c) ∧ ∃ pre post, l = pre ++ citToken d ++ post := by
  induction l with
  | nil => simp [findCitations] at h
  | cons a rest ih =>
    rw [findCitations_cons] at h
    cases hc : citationHere (a :: rest) with
    | none =>
      rw [hc] at h
      simp only [Option.toList_none, List.nil_append] at h
      obtain ⟨h1, h2, pre, post, h3⟩ := ih h
      exact ⟨h1, h2, a :: pre, post, by simp [h3]⟩
    | some ds =>
      rw [hc] at h
      simp only [Option.toList_some, List.singleton_append, List.mem_cons] at h
      cases h with
      | inl h =>
        subst h
        obtain ⟨h1, h2, post, h3⟩ := citationHere_some hc
        exact ⟨h1, h2, [], post, by simpa using h3⟩
      | inr h =>
        obtain ⟨h1, h2, pre, post, h3⟩ := ih h
        exact ⟨h1, h2, a :: pre, post, by simp [h3]⟩

theorem findCitations_complete {d : List Char} (pre post : List Char) (hne : d ≠ [])
    (hd : ∀ c ∈ d, isDigitChar c) :
    d ∈ findCitations (pre ++ citToken d ++ post) := by
  induction pre with
  | nil =>
    rw [List.nil_append, citToken_append, findCitations_token post hne hd]
    simp
  | cons a pre ih =>
    have hre : (a :: pre) ++ citToken d ++ post = a :: (pre ++ citToken d ++ post) := by
      simp
    rw [hre, findCitations_cons]
    exact List.mem_append_right _ ih

theorem hasCitation_iff {l : List Char} :
    hasCitation l = true ↔ ∃ d, d ∈ findCitations l := by
  unfold hasCitation
  cases h : findCitations l <;> simp

theorem hasCitation_append_citTail (s f : List Char) (hne : f ≠ [])
    (hd : ∀ c ∈ f, isDigitChar c) :
    hasCitation (s ++ citTail f) = true := by
  rw [hasCitation_iff]
  refine ⟨f, ?_⟩
  have : s ++ citTail f = (s ++ [' ']) ++ citToken f ++ ['.'] := by
    simp [citTail]
  rw [this]
  exact findCitations_complete _ _ hne hd

theorem citationHere_cons2 (a b : Char) (rest2 : List Char) :
    citationHere (a :: b :: rest2) =
      if a = '[' ∧ b = 'C' ∧ (rest2.takeWhile isDigitChar).isEmpty = false ∧
          headIsClose (rest2.dropWhile isDigitChar) = true
      then some (rest2.takeWhile isDigitChar) else none := by
  by_cases ha : a = '['
  · subst ha
    by_cases hb : b = 'C'
    · subst hb
      by_cases hds : (rest2.takeWhile isDigitChar).isEmpty
      · simp [citationHere, hds]
      · by_cases hcl : headIsClose (rest2.dropWhile isDigitChar)
        · simp [citationHere, hds, hcl]
        · simp [citationHere, hds, hcl]
    · simp [citationHere, hb]
  · simp [citationHere, ha]

theorem findCitationsScan_cons2 (a b : Char) (rest2 : List Char) :
    findCitationsScan (a :: b :: rest2) =
      if a = '[' ∧ b = 'C' ∧ (rest2.takeWhile isDigitChar).isEmpty = false ∧
          headIsClose (rest2.dropWhile isDigitChar) = true
      then rest2.takeWhile isDigitChar :: findCitationsScan (rest2.dropWhile isDigitChar).tail
      else findCitationsScan (b :: rest2) := by
  rw [findCitationsScan.eq_def]
  dsimp only
  by_cases ha : a = '['
  · subst ha
    by_cases hb : b = 'C'
    · subst hb
      rw [if_pos rfl, if_pos rfl]
      by_cases hds : (rest2.takeWhile isDigitChar).isEmpty
      · rw [if_pos hds, if_neg (by simp [hds])]
      · by_cases hcl : headIsClose (rest2.dropWhile isDigitChar)
        · rw [if_neg hds, if_pos hcl,
            if_pos ⟨rfl, rfl, by simpa using hds, hcl⟩]
        · rw [if_neg hds, if_neg hcl, if_neg (by rintro ⟨-, -, -, h⟩; exact hcl h)]
    · rw [if_pos rfl, if_neg hb, if_neg (by rintro ⟨-, h, -, -⟩; exact hb h)]
  · rw [if_neg ha, if_neg (by rintro ⟨h, -, -, -⟩; exact ha h)]

theorem findCitationsScan_eq (l : List Char) :
    findCitationsScan l = findCitations l := by
  suffices h : ∀ n (l : List Char), l.length ≤ n → findCitationsScan l = findCitations l from
    h l.length l le_rfl
  intro n
  induction n with
  | zero =>
    intro l hl
    have hnil : l = [] := List.length_eq_zero.mp (Nat.le_zero.mp hl)
    subst hnil
    rw [findCitationsScan.eq_def]
    rfl
  | succ n ih =>
    intro l hl
    match l with
    | [] =>
      rw [findCitationsScan.eq_def]
      rfl
    | [a] =>
      have h1 : findCitations [a] = [] := by
        rw [findCitations_cons]
        simp [citationHere, findCitations]
      have h0 : findCitationsScan ([] : List Char) = [] := by
        rw [findCitationsScan.eq_def]
      have h2 : findCitationsScan [a] = if a = '[' then [] else findCitationsScan [] := by
        rw [findCitationsScan.eq_def]
      rw [h1, h2]
      by_cases ha : a = '['
      · rw [if_pos ha]
      · rw [if_neg ha, h0]
    | a :: b :: rest2 =>
      have hlen1 : (b :: rest2).length ≤ n := by
        simp only [List.length_cons] at hl ⊢
        omega
      rw [findCitationsScan_cons2, findCitations_cons, citationHere_cons2]
      by_cases hcond : a = '[' ∧ b = 'C' ∧ (rest2.takeWhile isDigitChar).isEmpty = false ∧
          headIsClose (rest2.dropWhile isDigitChar) = true
      · rw [if_pos hcond, if_pos hcond]
        obtain ⟨ha, hb, hds, hcl⟩ := hcond
        subst ha; subst hb
        obtain ⟨r2, hdw⟩ : ∃ r2, rest2.dropWhile isDigitChar = ']' :: r2 := by
          cases h : rest2.dropWhile isDigitChar with
          | nil => rw [h] at hcl; exact absurd hcl (by simp [headIsClose])
          | cons y t =>
            rw [h] at hcl
            simp only [headIsClose, decide_eq_true_eq] at hcl
            exact ⟨t, by rw [hcl]⟩
        have hlen2 : r2.length ≤ n := by
          have h1 := congrArg List.length
            (List.takeWhile_append_dropWhile (p := isDigitChar) (l := rest2))
          rw [List.length_append, hdw] at h1
          simp only [List.length_cons] at h1 hl
          have hds' : (rest2.takeWhile isDigitChar).length ≠ 0 := by
            intro h0
            rw [List.length_eq_zero.mp h0] at hds
            exact absurd hds (by simp)
          omega
        have hrest : findCitations ('C' :: rest2) = findCitations r2 := by
          rw [findCitations_cons_of_ne _ (by decide)]
          conv_lhs => rw [← List.takeWhile_append_dropWhile (p := isDigitChar) (l := rest2)]
          rw [hdw, findCitations_append_no_bracket (']' :: r2)
            (fun c hc => isDigitChar_ne_bracket (List.mem_takeWhile_imp hc))]
          rw [findCitations_cons_of_ne _ (by decide)]
        rw [hdw, List.tail_cons, ih _ hlen2, hrest]
        rfl
      · rw [if_neg hcond, if_neg hcond, ih _ hlen1]
        rfl

/-! ### Locating citation tokens in concatenations and fragments -/

theorem occurrence_split {x y tok : List Char} {sep : Char}
    (htok : tok ≠ []) (hsep : sep ∉ tok)
    (h : ∃ pre post, x ++ sep :: y = pre ++ tok ++ post) :
    (∃ pre post, x = pre ++ tok ++ post) ∨ (∃ pre post, y = pre ++ tok ++ post) := by
  obtain ⟨pre, post, h⟩ := h
  rw [List.append_assoc, List.append_eq_append_iff] at h
  cases h with
  | inl h =>
    obtain ⟨a, _, ha2⟩ := h
    cases a with
    | nil =>
      rw [List.nil_append] at ha2
      cases tok with
      | nil => exact absurd rfl htok
      | cons t ts =>
        rw [List.cons_append] at ha2
        exact absurd (List.cons.inj ha2).1 (by rintro rfl; exact hsep (by simp))
    | cons s a' =>
      rw [List.cons_append] at ha2
      obtain ⟨-, hy⟩ := List.cons.inj ha2
      exact Or.inr ⟨a', post, by rw [hy, List.append_assoc]⟩
  | inr h =>
    obtain ⟨c, hc1, hc2⟩ := h
    rw [List.append_eq_append_iff] at hc2
    cases hc2 with
    | inl h2 =>
      obtain ⟨a2, hb1, _⟩ := h2
      exact Or.inl ⟨pre, a2, by rw [hc1, hb1, List.append_assoc]⟩
    | inr h2 =>
      obtain ⟨c2, hb1, hb2⟩ := h2
      cases c2 with
      | nil => exact Or.inl ⟨pre, [], by rw [hc1, hb1]; simp⟩
      | cons s c2' =>
        rw [List.cons_append] at hb2
        exact absurd (List.cons.inj hb2).1
          (by rintro rfl; exact hsep (by rw [hb1]; simp))

theorem citToken_ne_nil (d : List Char) : citToken d ≠ [] := by
  simp [citToken]

theorem space_not_mem_citToken {d : List Char} (hd : ∀ c ∈ d, isDigitChar c) :
    ' ' ∉ citToken d := by
  intro h
  simp only [citToken, List.mem_cons, List.mem_append, List.mem_singleton] at h
  rcases h with h | h | h | h
  · exact absurd h (by decide)
  · exact absurd h (by decide)
  · exact absurd (hd _ h) (by decide)
  · exact absurd h (by decide)

theorem occurrence_joinSep {frags : List (List Char)} {tok : List Char}
    (htok : tok ≠ []) (hsep : ' ' ∉ tok)
    (h : ∃ pre post, joinSep [' '] frags = pre ++ tok ++ post) :
    ∃ s ∈ frags, ∃ pre post, s = pre ++ tok ++ post := by
  induction frags with
  | nil =>
    obtain ⟨pre, post, h⟩ := h
    rw [joinSep] at h
    rw [List.append_assoc] at h
    exact absurd (List.append_eq_nil.mp h.symm).2.symm
      (by intro h2; exact htok (List.append_eq_nil.mp h2.symm).1)
  | cons s rest ih =>
    cases rest with
    | nil => exact ⟨s, by simp, h⟩
    | cons t ts =>
      have hj : joinSep [' '] (s :: t :: ts) = s ++ ' ' :: joinSep [' '] (t :: ts) := by
        simp [joinSep]
      rw [hj] at h
      cases occurrence_split htok hsep h with
      | inl h' => exact ⟨s, by simp, h'⟩
      | inr h' =>
        obtain ⟨u, hu, hocc⟩ := ih h'
        exact ⟨u, by simp [hu], hocc⟩

theorem findCitations_joinSep_subset {frags : List (List Char)} {d : List Char}
    (h : d ∈ findCitations (joinSep [' '] frags)) :
    ∃ s ∈ frags, d ∈ findCitations s := by
  obtain ⟨hne, hd, pre, post, hocc⟩ := findCitations_sound h
  obtain ⟨s, hs, pre', post', hocc'⟩ :=
    occurrence_joinSep (citToken_ne_nil d) (space_not_mem_citToken hd) ⟨pre, post, hocc⟩
  exact ⟨s, hs, by rw [hocc']; exact findCitations_complete pre' post' hne hd⟩

theorem findCitations_infixOf {s d : List Char} (u v : List Char)
    (h : d ∈ findCitations s) : d ∈ findCitations (u ++ s ++ v) := by
  obtain ⟨hne, hd, pre, post, hocc⟩ := findCitations_sound h
  rw [hocc]
  have hre : u ++ (pre ++ citToken d ++ post) ++ v = (u ++ pre) ++ citToken d ++ (post ++ v) := by
    simp [List.append_assoc]
  rw [hre]
  exact findCitations_complete _ _ hne hd

theorem pyStrip_decomp (s : List Char) :
    s = s.takeWhile isPySpace ++ pyStrip s ++
      ((s.dropWhile isPySpace).reverse.takeWhile isPySpace).reverse := by
  have hx : s.dropWhile isPySpace =
      pyStrip s ++ ((s.dropWhile isPySpace).reverse.takeWhile isPySpace).reverse := by
    unfold pyStrip
    conv_lhs => rw [← List.reverse_reverse (s.dropWhile isPySpace)]
    conv_lhs =>
      rw [← List.takeWhile_append_dropWhile (p := isPySpace)
        (l := (s.dropWhile isPySpace).reverse)]
    rw [List.reverse_append]
  conv_lhs => rw [← List.takeWhile_append_dropWhile (p := isPySpace) (l := s), hx]
  rw [List.append_assoc]

theorem pyStrip_infixOf (s : List Char) : ∃ u v, s = u ++ pyStrip s ++ v :=
  ⟨_, _, pyStrip_decomp s⟩

theorem sentSplit_infixOf :
    ∀ n (l : List Char), l.length ≤ n →
      (∀ acc s, s ∈ sentSplitGo acc l → ∃ u v, acc.reverse ++ l = u ++ s ++ v) ∧
      (∀ s, s ∈ sentSplitSkip l → ∃ u v, l = u ++ s ++ v) := by
  intro n
  induction n with
  | zero =>
    intro l hl
    have hnil : l = [] := List.length_eq_zero.mp (Nat.le_zero.mp hl)
    subst hnil
    constructor
    · intro acc s hs
      simp only [sentSplitGo, List.mem_singleton] at hs
      subst hs
      exact ⟨[], [], by simp⟩
    · intro s hs
      simp only [sentSplitSkip, List.mem_singleton] at hs
      subst hs
      exact ⟨[], [], by simp⟩
  | succ n ih =>
    intro l hl
    constructor
    · intro acc s hs
      cases l with
      | nil =>
        simp only [sentSplitGo, List.mem_singleton] at hs
        subst hs
        exact ⟨[], [], by simp⟩
      | cons c rest =>
        have hr : rest.length ≤ n := by
          simp only [List.length_cons] at hl
          omega
        rw [sentSplitGo] at hs
        by_cases hb : isPySpace c && headIsTerm acc
        · rw [if_pos hb] at hs
          cases (List.mem_cons).mp hs with
          | inl h =>
            subst h
            exact ⟨[], c :: rest, by simp⟩
          | inr h =>
            obtain ⟨u, v, huv⟩ := (ih rest hr).2 s h
            refine ⟨acc.reverse ++ c :: u, v, ?_⟩
            rw [huv]
            simp
        · rw [if_neg hb] at hs
          obtain ⟨u, v, huv⟩ := (ih rest hr).1 (c :: acc) s hs
          refine ⟨u, v, ?_⟩
          rw [← huv]
          simp
    · intro s hs
      cases l with
      | nil =>
        simp only [sentSplitSkip, List.mem_singleton] at hs
        subst hs
        exact ⟨[], [], by simp⟩
      | cons c rest =>
        have hr : rest.length ≤ n := by
          simp only [List.length_cons] at hl
          omega
        rw [sentSplitSkip] at hs
        by_cases hsp : isPySpace c
        · rw [if_pos hsp] at hs
          obtain ⟨u, v, huv⟩ := (ih rest hr).2 s hs
          exact ⟨c :: u, v, by rw [List.cons_append, List.cons_append, huv]⟩
        · rw [if_neg hsp] at hs
          obtain ⟨u, v, huv⟩ := (ih rest hr).1 [c] s hs
          exact ⟨u, v, by rw [← huv]; rfl⟩

theorem mem_pySplit_infixOf {a s : List Char} (h : s ∈ pySplit a) :
    ∃ u v, a = u ++ s ++ v := by
  obtain ⟨u, v, huv⟩ := (sentSplit_infixOf a.length a le_rfl).1 [] s h
  exact ⟨u, v, by simpa using huv⟩

theorem findCitations_frag_subset {a s d : List Char} (hs : s ∈ pySplit (pyStrip a))
    (h : d ∈ findCitations (pyStrip s)) : d ∈ findCitations a := by
  obtain ⟨u1, v1, h1⟩ := pyStrip_infixOf s
  obtain ⟨u2, v2, h2⟩ := mem_pySplit_infixOf hs
  obtain ⟨u3, v3, h3⟩ := pyStrip_infixOf a
  have hd1 : d ∈ findCitations s := by
    rw [h1]
    exact findCitations_infixOf u1 v1 h
  have hd2 : d ∈ findCitations (pyStrip a) := by
    rw [h2]
    exact findCitations_infixOf u2 v2 hd1
  rw [h3]
  exact findCitations_infixOf u3 v3 hd2

/-! ### The enforcement loops as maps over the clean fragments -/

theorem enforceLoopA_eq (f : List Char) (L : List (List Char)) :
    enforceLoopA f L = ((L.map pyStrip).filter (fun s => !s.isEmpty)).map (procA f) := by
  induction L with
  | nil => rfl
  | cons s rest ih =>
    rw [enforceLoopA]
    by_cases he : (pyStrip s).isEmpty
    · simp only [List.map_cons, List.filter_cons, he]
      simpa using ih
    · have heb : (pyStrip s).isEmpty = false := by simpa using he
      by_cases hc : hasCitation (pyStrip s)
      · rw [if_neg he, if_pos hc, ih]
        have hp : procA f (pyStrip s) = pyStrip s := by simp [procA, hc]
        simp [heb, hp]
      · have hcb : hasCitation (pyStrip s) = false := by simpa using hc
        by_cases hf : factualA (pyStrip s)
        · rw [if_neg he, if_neg hc, if_pos (by rw [hf, hcb]; rfl), ih]
          have hp : procA f (pyStrip s) = stripOneA (pyStrip s) ++ citTail f := by
            simp [procA, hcb, hf]
          simp [heb, hp]
        · have hfb : factualA (pyStrip s) = false := by simpa using hf
          rw [if_neg he, if_neg hc, if_neg (by rw [hfb]; simp), ih]
          have hp : procA f (pyStrip s) = pyStrip s := by simp [procA, hcb, hfb]
          simp [heb, hp]

theorem enforceLoopS_eq (f : List Char) (L : List (List Char)) :
    enforceLoopS f L = ((L.map pyStrip).filter (fun s => !s.isEmpty)).map (procS f) := by
  induction L with
  | nil => rfl
  | cons s rest ih =>
    rw [enforceLoopS]
    by_cases he : (pyStrip s).isEmpty
    · simp only [List.map_cons, List.filter_cons, he]
      simpa using ih
    · have heb : (pyStrip s).isEmpty = false := by simpa using he
      by_cases hc : hasCitation (pyStrip s)
      · rw [if_neg he, if_pos hc, ih]
        have hp : procS f (pyStrip s) = pyStrip s := by simp [procS, hc]
        simp [heb, hp]
      · have hcb : hasCitation (pyStrip s) = false := by simpa using hc
        by_cases hf : factualS (pyStrip s)
        · rw [if_neg he, if_neg hc, if_pos hf, ih]
          have hp : procS f (pyStrip s) = stripOneS (pyStrip s) ++ citTail f := by
            simp [procS, hcb, hf]
          simp [heb, hp]
        · have hfb : factualS (pyStrip s) = false := by simpa using hf
          rw [if_neg he, if_neg hc, if_neg hf, ih]
          have hp : procS f (pyStrip s) = pyStrip s := by simp [procS, hcb, hfb]
          simp [heb, hp]

theorem forcedLoop_eq (f : List Char) (L : List (List Char)) :
    forcedLoop f L = ((L.map pyStrip).filter (fun s => !s.isEmpty)).map (procF f) := by
  induction L with
  | nil => rfl
  | cons s rest ih =>
    rw [forcedLoop]
    by_cases he : (pyStrip s).isEmpty
    · simp only [List.map_cons, List.filter_cons, he]
      simpa using ih
    · have heb : (pyStrip s).isEmpty = false := by simpa using he
      by_cases hc : hasCitation (pyStrip s)
      · rw [if_neg he, if_pos hc, ih]
        have hp : procF f (pyStrip s) = pyStrip s := by simp [procF, hc]
        simp [heb, hp]
      · have hcb : hasCitation (pyStrip s) = false := by simpa using hc
        by_cases hf : decide (3 < wordCount (pyStrip s)) = true
        · rw [if_neg he, if_neg hc, if_pos hf, ih]
          have hp : procF f (pyStrip s) = stripOneS (pyStrip s) ++ citTail f := by
            simp only [procF, hcb, Bool.false_eq_true, if_false]
            rw [if_pos hf]
          simp [heb, hp]
        · rw [if_neg he, if_neg hc, if_neg hf, ih]
          have hp : procF f (pyStrip s) = pyStrip s := by
            simp only [procF, hcb, Bool.false_eq_true, if_false]
            rw [if_neg hf]
          simp [heb, hp]

/-! ### Claim theorems: direct consequences -/

/-- Claim C3 (confirmed): whenever the answer assembled by the qa endpoint
equals the No-Answer Sentinel exactly, the returned context and citations
are both absent. -/
theorem qa_no_answer_purity (r : QAResult)
    (h : (qaEndpointPayload r).answer = some noAnswerText) :
    (qaEndpointPayload r).context = none ∧ (qaEndpointPayload r).citations = none := by
  unfold qaEndpointPayload at h ⊢
  by_cases hr : r.answer = some noAnswerText
  · rw [if_pos hr]
    exact ⟨rfl, rfl⟩
  · rw [if_neg hr] at h
    exact absurd h hr

theorem qa_no_answer_purity_witness :
    (qaEndpointPayload ⟨some noAnswerText, some "ctx".toList, some []⟩).answer =
      some noAnswerText ∧
    (qaEndpointPayload ⟨some noAnswerText, some "ctx".toList, some []⟩).context = none ∧
    (qaEndpointPayload ⟨some noAnswerText, some "ctx".toList, some []⟩).citations = none :=
  ⟨by decide, qa_no_answer_purity _ (by decide)⟩

/-- Claim C5 (confirmed): Scenario B.  With the context block
`[C1] (Page 3)\nVector databases enable similarity search.` and the
uncited draft `Vector databases enable similarity search.`, the service
boundary enforcement (whose forced fallback fires because the first pass
classifies the 5-token sentence as non-factual) produces exactly
`Vector databases enable similarity search [C1].`. -/
theorem scenario_b :
    serviceAnswer "Vector databases enable similarity search.".toList
        "[C1] (Page 3)\nVector databases enable similarity search.".toList =
      "Vector databases enable similarity search [C1].".toList := by
  decide

/-- Claim C6 (confirmed): an input equal to the No-Answer Sentinel is
returned unchanged by both enforcement functions, for every context. -/
theorem sentinel_pass_through (context : List Char) :
    enforceCitations noAnswerText context = noAnswerText ∧
    enforceCitationsOnAnswer noAnswerText context = noAnswerText := by
  have h : containsSub noInfoSub noAnswerText = true := by decide
  constructor
  · unfold enforceCitations
    rw [if_pos h]
  · unfold enforceCitationsOnAnswer
    rw [if_neg (by decide), if_pos h]

/-- Claim C9 (confirmed): any answer that contains the sentinel substring
anywhere is returned unchanged by both enforcement functions and skips the
service-level enforcement and forced fallback entirely. -/
theorem sentinel_substring_gate (answer context : List Char)
    (h : containsSub noInfoSub answer = true) :
    enforceCitations answer context = answer ∧
    enforceCitationsOnAnswer answer context = answer ∧
    serviceAnswer answer context = answer := by
  refine ⟨?_, ?_, ?_⟩
  · unfold enforceCitations
    rw [if_pos h]
  · unfold enforceCitationsOnAnswer
    by_cases he : answer.isEmpty
    · rw [if_pos he]
    · rw [if_neg he, if_pos h]
  · unfold serviceAnswer
    rw [if_neg (by simp [h])]

theorem sentinel_substring_gate_witness :
    containsSub noInfoSub
      "provided context does not contain information but the system uses vectors 42.".toList = true ∧
    serviceAnswer
      "provided context does not contain information but the system uses vectors 42.".toList
      "[C1] x".toList =
      "provided context does not contain information but the system uses vectors 42.".toList :=
  ⟨by decide,
   (sentinel_substring_gate _ "[C1] x".toList (by decide)).2.2⟩

/-! ### Counterexamples -/

/-- Claim C1 counterexample: with context `[C1] x` (one identifier) and
the non-sentinel answer `Alpha beta gamma delta. It is good [C1].`, the
full two-tier service enforcement leaves the 4-token first sentence
uncited (the first pass keeps it as non-factual, and the forced fallback
does not fire because the second sentence already carries a citation). -/
theorem coverage_counterexample :
    findCitations "[C1] x".toList ≠ [] ∧
    "Alpha beta gamma delta. It is good [C1].".toList ≠ noAnswerText ∧
    ∃ s ∈ pySplit (serviceAnswer "Alpha beta gamma delta. It is good [C1].".toList
      "[C1] x".toList), 3 < wordCount s ∧ hasCitation s = false := by
  decide

/-- Claim C2 counterexample: with an empty context (no citation
identifiers) and the citation-free answer `alpha beta gamma delta`, the
forced fallback of the service boundary invents the identifier `[C1]`,
which occurs neither in the answer nor in the context. -/
theorem vocabulary_counterexample :
    findCitations ([] : List Char) = [] ∧
    findCitations "alpha beta gamma delta".toList = [] ∧
    findCitations (serviceAnswer "alpha beta gamma delta".toList []) = [['1']] := by
  decide

/-- Claim C4 counterexample: neither enforcement function is idempotent.
For the node version, a factual sentence ending in `!` receives ` [C1].`,
and the second pass re-splits at `! ` and cites the first piece again; the
service version does the same on a sentence ending `!.`. -/
theorem idempotence_counterexample :
    enforceCitations (enforceCitations "It is good to go!".toList "[C1] x".toList)
        "[C1] x".toList ≠
      enforceCitations "It is good to go!".toList "[C1] x".toList ∧
    enforceCitationsOnAnswer
        (enforceCitationsOnAnswer "It has weird stuff!.".toList "[C1] x".toList)
        "[C1] x".toList ≠
      enforceCitationsOnAnswer "It has weird stuff!.".toList "[C1] x".toList := by
  decide

/-- Claim C7 counterexample: the two enforcement passes are not the same
algorithm.  `It HAS things.` is factual for the case-insensitive service
pass but not for the case-sensitive node pass; `It is fine now!` gets its
`!` stripped by the service pass but not by the node pass. -/
theorem equivalence_counterexample :
    enforceCitations "It HAS things.".toList "[C1] x".toList ≠
      enforceCitationsOnAnswer "It HAS things.".toList "[C1] x".toList ∧
    enforceCitations "It is fine now!".toList "[C1] x".toList ≠
      enforceCitationsOnAnswer "It is fine now!".toList "[C1] x".toList := by
  decide

/-- Claim C8 counterexample: when a chunk's content itself contains a
bracketed citation token, that token occurs twice in the produced context
block, so `[C1]` does not appear exactly once. -/
theorem bijection_counterexample :
    (serialize_chunks_with_ids [⟨"[C1]".toList, none, none⟩]).2.map Prod.fst =
      [chunkId 0] ∧
    (findCitations (serialize_chunks_with_ids [⟨"[C1]".toList, none, none⟩]).1).countP
      (fun t => decide (t = natDigits 1)) = 2 := by
  decide

/-! ### Unfolding lemmas for the enforcement functions -/

theorem enforceCitations_eq {c f : List Char} {rest : List (List Char)} (a : List Char)
    (hc : findCitations c = f :: rest) (hs : containsSub noInfoSub a = false) :
    enforceCitations a c = joinSep [' '] ((cleanFrags a).map (procA f)) := by
  unfold enforceCitations
  rw [if_neg (by simp [hs]), hc]
  show joinSep [' '] (enforceLoopA f (pySplit (pyStrip a))) = _
  rw [enforceLoopA_eq]
  rfl

theorem enforceCitations_eq_nil {c : List Char} (a : List Char)
    (hc : findCitations c = []) :
    enforceCitations a c = a := by
  unfold enforceCitations
  by_cases hs : containsSub noInfoSub a
  · rw [if_pos hs]
  · rw [if_neg hs, hc]

theorem enforceCitationsOnAnswer_eq {c f : List Char} {rest : List (List Char)}
    (a : List Char) (hc : findCitations c = f :: rest)
    (hs : containsSub noInfoSub a = false) (he : a.isEmpty = false) :
    enforceCitationsOnAnswer a c = joinSep [' '] ((cleanFrags a).map (procS f)) := by
  unfold enforceCitationsOnAnswer
  rw [if_neg (by simp [he]), if_neg (by simp [hs]), hc]
  show joinSep [' '] (enforceLoopS f (pySplit (pyStrip a))) = _
  rw [enforceLoopS_eq]
  rfl

theorem enforceCitationsOnAnswer_eq_nil {c : List Char} (a : List Char)
    (hc : findCitations c = []) :
    enforceCitationsOnAnswer a c = a := by
  unfold enforceCitationsOnAnswer
  by_cases he : a.isEmpty
  · rw [if_pos he]
  · rw [if_neg he]
    by_cases hs : containsSub noInfoSub a
    · rw [if_pos hs]
    · rw [if_neg hs, hc]

theorem serviceAnswer_eq_enforced (a c : List Char) (he : a.isEmpty = false)
    (hs : containsSub noInfoSub a = false)
    (hcit : hasCitation (enforceCitationsOnAnswer a c) = true) :
    serviceAnswer a c = enforceCitationsOnAnswer a c := by
  unfold serviceAnswer
  rw [if_pos (by simp [he, hs]), if_neg (by simp [hcit])]

theorem serviceAnswer_eq_forced {c f : List Char} {rest : List (List Char)}
    (a : List Char) (hc : findCitations c = f :: rest) (he : a.isEmpty = false)
    (hs : containsSub noInfoSub a = false)
    (hnc : hasCitation (enforceCitationsOnAnswer a c) = false) :
    serviceAnswer a c =
      joinSep [' '] ((cleanFrags (enforceCitationsOnAnswer a c)).map (procF f)) := by
  unfold serviceAnswer
  rw [if_pos (by simp [he, hs]), if_pos (by simp [hnc]), hc]
  show joinSep [' '] (forcedLoop f (pySplit (pyStrip (enforceCitationsOnAnswer a c)))) = _
  rw [forcedLoop_eq]
  rfl

theorem serviceAnswer_eq_forced_nil {c : List Char} (a : List Char)
    (hc : findCitations c = []) (he : a.isEmpty = false)
    (hs : containsSub noInfoSub a = false)
    (hnc : hasCitation (enforceCitationsOnAnswer a c) = false) :
    serviceAnswer a c =
      joinSep [' '] ((cleanFrags (enforceCitationsOnAnswer a c)).map (procF ['1'])) := by
  unfold serviceAnswer
  rw [if_pos (by simp [he, hs]), if_pos (by simp [hnc]), hc]
  show joinSep [' '] (forcedLoop ['1'] (pySplit (pyStrip (enforceCitationsOnAnswer a c)))) = _
  rw [forcedLoop_eq]
  rfl

theorem mem_cleanFrags_ne_nil {a s : List Char} (h : s ∈ cleanFrags a) : s ≠ [] := by
  have h2 := (List.mem_filter.mp h).2
  intro hnil
  rw [hnil] at h2
  exact absurd h2 (by decide)

/-- Claim C10 counterexample: for the answer consisting of the sentinel
substring surrounded by whitespace (and a context with one identifier),
the node enforcement returns the answer verbatim, including its
surrounding whitespace, so the output is not a space-join of the stripped
sentences with optional citation tails. -/
theorem preservation_counterexample :
    findCitations c10Context ≠ [] ∧
    ¬∃ frags : List (List Char),
      frags.length = (cleanFrags c10Answer).length ∧
      (∀ i (h1 : i < frags.length) (h2 : i < (cleanFrags c10Answer).length),
        frags.get ⟨i, h1⟩ = (cleanFrags c10Answer).get ⟨i, h2⟩ ∨
        frags.get ⟨i, h1⟩ =
          stripOneA ((cleanFrags c10Answer).get ⟨i, h2⟩) ++ citTail ['1']) ∧
      enforceCitations c10Answer c10Context = joinSep [' '] frags := by
  constructor
  · decide
  · rintro ⟨frags, hlen, hdisj, hout⟩
    have hcl : cleanFrags c10Answer =
        ["provided context does not contain information.".toList] := by decide
    rw [hcl] at hlen hdisj
    simp only [List.length_singleton] at hlen
    obtain ⟨f, rfl⟩ := List.length_eq_one.mp hlen
    have hd := hdisj 0 (by simp) (by simp)
    have hout' : enforceCitations c10Answer c10Context = f := hout
    cases hd with
    | inl h =>
      rw [show (([f] : List (List Char)).get ⟨0, by simp⟩) = f from rfl] at h
      rw [h] at hout'
      exact absurd hout' (by decide)
    | inr h =>
      rw [show (([f] : List (List Char)).get ⟨0, by simp⟩) = f from rfl] at h
      rw [h] at hout'
      exact absurd hout' (by decide)

/-- Claim C10 (corrected): provided the answer does not contain the
sentinel substring (and, for the service function, is non-empty), each
enforcement pass outputs exactly the non-empty whitespace-stripped input
sentences, in order, each kept verbatim or extended by one appended
citation tail (one trailing terminator stripped first). -/
theorem sentence_preservation (a c f : List Char) (rest : List (List Char))
    (hc : findCitations c = f :: rest) (hs : containsSub noInfoSub a = false) :
    enforceCitations a c = joinSep [' '] ((cleanFrags a).map (procA f)) ∧
    (a.isEmpty = false →
      enforceCitationsOnAnswer a c = joinSep [' '] ((cleanFrags a).map (procS f))) ∧
    ∀ s ∈ cleanFrags a, s ≠ [] ∧
      (procA f s = s ∨ procA f s = stripOneA s ++ citTail f) ∧
      (procS f s = s ∨ procS f s = stripOneS s ++ citTail f) := by
  refine ⟨enforceCitations_eq a hc hs, fun he => enforceCitationsOnAnswer_eq a hc hs he, ?_⟩
  intro s hsm
  refine ⟨mem_cleanFrags_ne_nil hsm, ?_, ?_⟩
  · unfold procA
    by_cases h1 : hasCitation s
    · rw [if_pos h1]
      exact Or.inl rfl
    · rw [if_neg h1]
      by_cases h2 : factualA s && !hasCitation s
      · rw [if_pos h2]
        exact Or.inr rfl
      · rw [if_neg h2]
        exact Or.inl rfl
  · unfold procS
    by_cases h1 : hasCitation s
    · rw [if_pos h1]
      exact Or.inl rfl
    · rw [if_neg h1]
      by_cases h2 : factualS s
      · rw [if_pos h2]
        exact Or.inr rfl
      · rw [if_neg h2]
        exact Or.inl rfl

theorem sentence_preservation_witness :
    findCitations "[C1] x".toList = ['1'] :: [] ∧
    containsSub noInfoSub "it is nice here. ok".toList = false ∧
    enforceCitations "it is nice here. ok".toList "[C1] x".toList =
      joinSep [' '] ((cleanFrags "it is nice here. ok".toList).map (procA ['1'])) :=
  ⟨by decide, by decide,
   (sentence_preservation "it is nice here. ok".toList "[C1] x".toList ['1'] []
     (by decide) (by decide)).1⟩

/-! ### Vocabulary containment -/

theorem digit_run_eq {f d p q : List Char} (hf : ∀ c ∈ f, isDigitChar c)
    (hd : ∀ c ∈ d, isDigitChar c) (h : f ++ ']' :: p = d ++ ']' :: q) :
    f = d ∧ p = q := by
  induction f generalizing d with
  | nil =>
    cases d with
    | nil => simpa using h
    | cons x d' =>
      rw [List.nil_append, List.cons_append] at h
      obtain ⟨hx, -⟩ := List.cons.inj h
      exact absurd (hd x (by simp)) (by rw [← hx]; decide)
  | cons a f' ih =>
    cases d with
    | nil =>
      rw [List.cons_append, List.nil_append] at h
      obtain ⟨hx, -⟩ := List.cons.inj h
      exact absurd (hf a (by simp)) (by rw [hx]; decide)
    | cons x d' =>
      rw [List.cons_append, List.cons_append] at h
      obtain ⟨hx, hrest⟩ := List.cons.inj h
      obtain ⟨h1, h2⟩ := ih (fun c hc => hf c (by simp [hc]))
        (fun c hc => hd c (by simp [hc])) hrest
      exact ⟨by rw [hx, h1], h2⟩

theorem occurrence_citTail {f d : List Char} (hf : ∀ c ∈ f, isDigitChar c)
    (hd : ∀ c ∈ d, isDigitChar c)
    (h : ∃ pre post, citToken f ++ ['.'] = pre ++ citToken d ++ post) : d = f := by
  obtain ⟨pre, post, h⟩ := h
  cases pre with
  | nil =>
    rw [List.nil_append] at h
    rw [citToken_append, citToken_append] at h
    obtain ⟨-, h2⟩ := List.cons.inj h
    obtain ⟨-, h3⟩ := List.cons.inj h2
    exact ((digit_run_eq hf hd h3).1).symm
  | cons c pre' =>
    exfalso
    rw [citToken_append, List.cons_append] at h
    obtain ⟨-, h2⟩ := List.cons.inj h
    have hmem : '[' ∈ ('C' :: (f ++ ']' :: ['.'])) := by
      rw [h2]
      refine List.mem_append.mpr (Or.inl ?_)
      refine List.mem_append.mpr (Or.inr ?_)
      simp [citToken]
    simp only [List.mem_cons, List.mem_append, List.mem_singleton] at hmem
    rcases hmem with h3 | h3 | h3 | h3
    · exact absurd h3 (by decide)
    · exact absurd (hf _ h3) (by decide)
    · exact absurd h3 (by decide)
    · exact absurd h3 (by decide)

theorem stripOneA_cases (s : List Char) :
    stripOneA s = s ∨ stripOneA s = s.dropLast := by
  unfold stripOneA
  by_cases h : endsIn s '.'
  · rw [if_pos h]
    exact Or.inr rfl
  · rw [if_neg h]
    exact Or.inl rfl

theorem stripOneS_cases (s : List Char) :
    stripOneS s = s ∨ stripOneS s = s.dropLast := by
  unfold stripOneS
  by_cases h : endsIn s '.' || endsIn s '!' || endsIn s '?'
  · rw [if_pos h]
    exact Or.inr rfl
  · rw [if_neg h]
    exact Or.inl rfl

theorem findCitations_strip_citTail {s f d : List Char} (s2 : List Char)
    (hs2 : s2 = s ∨ s2 = s.dropLast) (hf2 : ∀ c ∈ f, isDigitChar c)
    (h : d ∈ findCitations (s2 ++ citTail f)) :
    d ∈ findCitations s ∨ d = f := by
  obtain ⟨hdne, hdd, pre, post, hocc⟩ := findCitations_sound h
  have hsplit := occurrence_split (x := s2) (y := citToken f ++ ['.'])
    (citToken_ne_nil d) (space_not_mem_citToken hdd)
    ⟨pre, post, by rw [← hocc]; simp [citTail]⟩
  cases hsplit with
  | inl hoc =>
    left
    obtain ⟨p2, q2, h2⟩ := hoc
    obtain ⟨q3, h3⟩ : ∃ q3, s = p2 ++ citToken d ++ q3 := by
      rcases hs2 with rfl | hdl
      · exact ⟨q2, h2⟩
      · by_cases hsnil : s = []
        · subst hsnil
          rw [show ([] : List Char).dropLast = [] from rfl] at hdl
          rw [hdl] at h2
          exact absurd (List.append_eq_nil.mp
            (List.append_eq_nil.mp h2.symm).1).2 (citToken_ne_nil d)
        · refine ⟨q2 ++ [s.getLast hsnil], ?_⟩
          conv_lhs => rw [← List.dropLast_append_getLast hsnil]
          rw [← hdl, h2]
          simp [List.append_assoc]
    rw [h3]
    exact findCitations_complete _ _ hdne hdd
  | inr hoc =>
    right
    exact occurrence_citTail hf2 hdd hoc

theorem tokens_joined_subset {x f d : List Char} (proc : List Char → List Char)
    (hshape : ∀ s, proc s = s ∨ proc s = stripOneA s ++ citTail f ∨
      proc s = stripOneS s ++ citTail f)
    (hf2 : ∀ c ∈ f, isDigitChar c)
    (h : d ∈ findCitations (joinSep [' '] ((cleanFrags x).map proc))) :
    d ∈ findCitations x ∨ d = f := by
  obtain ⟨t, htm, hdt⟩ := findCitations_joinSep_subset h
  obtain ⟨s, hsm, rfl⟩ := List.mem_map.mp htm
  have hin : d ∈ findCitations s ∨ d = f := by
    rcases hshape s with hps | hps | hps
    · rw [hps] at hdt
      exact Or.inl hdt
    · rw [hps] at hdt
      exact findCitations_strip_citTail _ (stripOneA_cases s) hf2 hdt
    · rw [hps] at hdt
      exact findCitations_strip_citTail _ (stripOneS_cases s) hf2 hdt
  cases hin with
  | inl hds =>
    left
    obtain ⟨s', hs'm, hs'e⟩ : ∃ s' ∈ pySplit (pyStrip x), pyStrip s' = s := by
      have h1 := List.mem_filter.mp hsm
      obtain ⟨s', hs', he⟩ := List.mem_map.mp h1.1
      exact ⟨s', hs', he⟩
    exact findCitations_frag_subset hs'm (by rw [hs'e]; exact hds)
  | inr hdf =>
    exact Or.inr hdf

theorem procA_shape (f s : List Char) :
    procA f s = s ∨ procA f s = stripOneA s ++ citTail f ∨
      procA f s = stripOneS s ++ citTail f := by
  unfold procA
  by_cases h1 : hasCitation s
  · rw [if_pos h1]
    exact Or.inl rfl
  · rw [if_neg h1]
    by_cases h2 : factualA s && !hasCitation s
    · rw [if_pos h2]
      exact Or.inr (Or.inl rfl)
    · rw [if_neg h2]
      exact Or.inl rfl

theorem procS_shape (f s : List Char) :
    procS f s = s ∨ procS f s = stripOneA s ++ citTail f ∨
      procS f s = stripOneS s ++ citTail f := by
  unfold procS
  by_cases h1 : hasCitation s
  · rw [if_pos h1]
    exact Or.inl rfl
  · rw [if_neg h1]
    by_cases h2 : factualS s
    · rw [if_pos h2]
      exact Or.inr (Or.inr rfl)
    · rw [if_neg h2]
      exact Or.inl rfl

theorem procF_shape (f s : List Char) :
    procF f s = s ∨ procF f s = stripOneA s ++ citTail f ∨
      procF f s = stripOneS s ++ citTail f := by
  unfold procF
  by_cases h1 : hasCitation s
  · rw [if_pos h1]
    exact Or.inl rfl
  · rw [if_neg h1]
    by_cases h2 : decide (3 < wordCount s) = true
    · rw [if_pos h2]
      exact Or.inr (Or.inr rfl)
    · rw [if_neg h2]
      exact Or.inl rfl

/-- Claim C2 (corrected): both enforcement functions return the answer
unchanged when the context has no citation identifiers, and whenever the
context does contain identifiers every citation token of the enforced
answer (node pass, service pass, and forced fallback) already occurs in
the answer or in the context.  The original claim fails only because the
forced fallback, facing a context with no identifiers, appends the
invented token `[C1]` (see the counterexample). -/
theorem vocabulary_containment (a c : List Char) :
    (findCitations c = [] →
      enforceCitations a c = a ∧ enforceCitationsOnAnswer a c = a) ∧
    (findCitations c ≠ [] →
      (∀ d ∈ findCitations (enforceCitations a c),
        d ∈ findCitations a ∨ d ∈ findCitations c) ∧
      (∀ d ∈ findCitations (enforceCitationsOnAnswer a c),
        d ∈ findCitations a ∨ d ∈ findCitations c) ∧
      (∀ d ∈ findCitations (serviceAnswer a c),
        d ∈ findCitations a ∨ d ∈ findCitations c)) := by
  constructor
  · intro hc
    exact ⟨enforceCitations_eq_nil a hc, enforceCitationsOnAnswer_eq_nil a hc⟩
  · intro hcne
    obtain ⟨f, rest, hc⟩ : ∃ f rest, findCitations c = f :: rest := by
      cases h : findCitations c with
      | nil => exact absurd h hcne
      | cons f rest => exact ⟨f, rest, rfl⟩
    have hfmem : f ∈ findCitations c := by
      rw [hc]
      simp
    obtain ⟨hfne, hfd, -⟩ := findCitations_sound hfmem
    have hA : ∀ d ∈ findCitations (enforceCitations a c),
        d ∈ findCitations a ∨ d ∈ findCitations c := by
      intro d hd
      by_cases hs : containsSub noInfoSub a
      · have heq : enforceCitations a c = a := by
          unfold enforceCitations
          rw [if_pos hs]
        rw [heq] at hd
        exact Or.inl hd
      · have hsb : containsSub noInfoSub a = false := by simpa using hs
        rw [enforceCitations_eq a hc hsb] at hd
        cases tokens_joined_subset _ (procA_shape f) hfd hd with
        | inl h => exact Or.inl h
        | inr h => exact Or.inr (h ▸ hfmem)
    have hS : ∀ d ∈ findCitations (enforceCitationsOnAnswer a c),
        d ∈ findCitations a ∨ d ∈ findCitations c := by
      intro d hd
      by_cases he : a.isEmpty
      · have heq : enforceCitationsOnAnswer a c = a := by
          unfold enforceCitationsOnAnswer
          rw [if_pos he]
        rw [heq] at hd
        exact Or.inl hd
      · by_cases hs : containsSub noInfoSub a
        · have heq : enforceCitationsOnAnswer a c = a := by
            unfold enforceCitationsOnAnswer
            rw [if_neg he, if_pos hs]
          rw [heq] at hd
          exact Or.inl hd
        · have hsb : containsSub noInfoSub a = false := by simpa using hs
          have heb : a.isEmpty = false := by simpa using he
          rw [enforceCitationsOnAnswer_eq a hc hsb heb] at hd
          cases tokens_joined_subset _ (procS_shape f) hfd hd with
          | inl h => exact Or.inl h
          | inr h => exact Or.inr (h ▸ hfmem)
    refine ⟨hA, hS, ?_⟩
    intro d hd
    by_cases he : a.isEmpty
    · have heq : serviceAnswer a c = a := by
        unfold serviceAnswer
        rw [if_neg (by simp [he])]
      rw [heq] at hd
      exact Or.inl hd
    · by_cases hs : containsSub noInfoSub a
      · have heq : serviceAnswer a c = a := by
          unfold serviceAnswer
          rw [if_neg (by simp [hs])]
        rw [heq] at hd
        exact Or.inl hd
      · have hsb : containsSub noInfoSub a = false := by simpa using hs
        have heb : a.isEmpty = false := by simpa using he
        by_cases hcit : hasCitation (enforceCitationsOnAnswer a c)
        · rw [serviceAnswer_eq_enforced a c heb hsb hcit] at hd
          exact hS d hd
        · have hncb : hasCitation (enforceCitationsOnAnswer a c) = false := by
            simpa using hcit
          rw [serviceAnswer_eq_forced a hc heb hsb hncb] at hd
          cases tokens_joined_subset _ (procF_shape f) hfd hd with
          | inl h => exact hS d h
          | inr h => exact Or.inr (h ▸ hfmem)

theorem vocabulary_containment_witness :
    findCitations "[C1] x".toList ≠ [] ∧
    (['9'] ∈ findCitations "It has 42 things [C9]. sure".toList ∨
      ['9'] ∈ findCitations "[C1] x".toList) :=
  ⟨by decide,
   ((vocabulary_containment "It has 42 things [C9]. sure".toList "[C1] x".toList).2
     (by decide)).1 ['9'] (by decide)⟩

/-- Claim C1 (corrected): when the context has at least one identifier,
the answer is non-empty, does not contain the sentinel substring, and the
first service pass leaves no citation token anywhere, the forced fallback
produces the space-join of its processed fragments, every one of which
either has at most 3 whitespace tokens or carries a citation token.  (As
originally stated the claim is false: when the first pass leaves some
citation, the fallback does not fire and 4-token uncited sentences
survive; see the counterexample.) -/
theorem coverage_guarantee (a c f : List Char) (rest : List (List Char))
    (hc : findCitations c = f :: rest) (he : a.isEmpty = false)
    (hs : containsSub noInfoSub a = false)
    (hnc : hasCitation (enforceCitationsOnAnswer a c) = false) :
    serviceAnswer a c =
      joinSep [' '] ((cleanFrags (enforceCitationsOnAnswer a c)).map (procF f)) ∧
    ∀ t ∈ (cleanFrags (enforceCitationsOnAnswer a c)).map (procF f),
      wordCount t ≤ 3 ∨ hasCitation t = true := by
  refine ⟨serviceAnswer_eq_forced a hc he hs hnc, ?_⟩
  intro t htm
  obtain ⟨s, hsm, rfl⟩ := List.mem_map.mp htm
  have hfmem : f ∈ findCitations c := by
    rw [hc]
    simp
  obtain ⟨hfne, hfd, -⟩ := findCitations_sound hfmem
  unfold procF
  by_cases h1 : hasCitation s
  · rw [if_pos h1]
    exact Or.inr h1
  · rw [if_neg h1]
    by_cases h2 : decide (3 < wordCount s) = true
    · rw [if_pos h2]
      exact Or.inr (hasCitation_append_citTail _ f hfne hfd)
    · rw [if_neg h2]
      left
      have h3 : ¬(3 < wordCount s) := by
        intro h4
        exact h2 (by simpa using h4)
      omega

theorem coverage_guarantee_witness :
    hasCitation (enforceCitationsOnAnswer
      "Vector databases enable similarity search.".toList
      "[C1] (Page 3)\nVector databases enable similarity search.".toList) = false ∧
    serviceAnswer "Vector databases enable similarity search.".toList
        "[C1] (Page 3)\nVector databases enable similarity search.".toList =
      joinSep [' '] ((cleanFrags (enforceCitationsOnAnswer
        "Vector databases enable similarity search.".toList
        "[C1] (Page 3)\nVector databases enable similarity search.".toList)).map
        (procF ['1'])) :=
  ⟨by decide,
   (coverage_guarantee "Vector databases enable similarity search.".toList
     "[C1] (Page 3)\nVector databases enable similarity search.".toList ['1'] []
     (by decide) (by decide) (by decide) (by decide)).1⟩

/-! ### Single-algorithm comparison (C7) -/

theorem mem_of_getLast? {l : List Char} {a : Char} (h : l.getLast? = some a) :
    a ∈ l := by
  induction l with
  | nil => simp at h
  | cons x rest ih =>
    cases hr : rest with
    | nil =>
      subst hr
      simp at h
      simp [h]
    | cons y t =>
      subst hr
      rw [List.getLast?_cons_cons] at h
      exact List.mem_cons_of_mem x (ih h)

theorem mem_cleanFrags_chars {a s : List Char} (hs : s ∈ cleanFrags a) :
    ∀ ch ∈ s, ch ∈ a := by
  obtain ⟨s', hs'm, hse⟩ : ∃ s' ∈ pySplit (pyStrip a), pyStrip s' = s := by
    have h1 := List.mem_filter.mp hs
    obtain ⟨s', hsm', he⟩ := List.mem_map.mp h1.1
    exact ⟨s', hsm', he⟩
  intro ch hch
  rw [← hse] at hch
  have h1 : ch ∈ s' := by
    rw [pyStrip_decomp s']
    simp only [List.mem_append]
    exact Or.inl (Or.inr hch)
  have h2 : ch ∈ pyStrip a := by
    obtain ⟨u, v, huv⟩ := mem_pySplit_infixOf hs'm
    rw [huv]
    simp only [List.mem_append]
    exact Or.inl (Or.inr h1)
  rw [pyStrip_decomp a]
  simp only [List.mem_append]
  exact Or.inl (Or.inr h2)

/-- Claim C7 (corrected): the node pass and the first-tier service pass
agree on every (answer, context) whose answer contains no upper-case
letter and no `!` or `?`.  In general they differ: the node pass matches
the assertive verbs case-sensitively and strips only a trailing period,
while the service pass matches case-insensitively and strips any one of
`.`, `!`, `?` (see the counterexample). -/
theorem single_algorithm_equivalence (a c : List Char)
    (hup : ∀ ch ∈ a, ¬('A' ≤ ch ∧ ch ≤ 'Z'))
    (hbang : '!' ∉ a) (hq : '?' ∉ a) :
    enforceCitations a c = enforceCitationsOnAnswer a c := by
  by_cases he : a.isEmpty
  · have hanil : a = [] := by simpa [List.isEmpty_iff] using he
    subst hanil
    have hqa : enforceCitationsOnAnswer [] c = [] := by
      unfold enforceCitationsOnAnswer
      rw [if_pos (show (List.isEmpty ([] : List Char)) = true from rfl)]
    rw [hqa]
    cases hfc : findCitations c with
    | nil => exact enforceCitations_eq_nil _ hfc
    | cons f rest =>
      rw [enforceCitations_eq _ hfc (by decide)]
      have hcf : cleanFrags ([] : List Char) = [] := by decide
      rw [hcf]
      rfl
  · have heb : a.isEmpty = false := by simpa using he
    by_cases hsen : containsSub noInfoSub a
    · have h1 : enforceCitations a c = a := by
        unfold enforceCitations
        rw [if_pos hsen]
      have h2 : enforceCitationsOnAnswer a c = a := by
        unfold enforceCitationsOnAnswer
        rw [if_neg he, if_pos hsen]
      rw [h1, h2]
    · have hsb : containsSub noInfoSub a = false := by simpa using hsen
      cases hfc : findCitations c with
      | nil =>
        rw [enforceCitations_eq_nil _ hfc, enforceCitationsOnAnswer_eq_nil _ hfc]
      | cons f rest =>
        rw [enforceCitations_eq a hfc hsb, enforceCitationsOnAnswer_eq a hfc hsb heb]
        congr 1
        apply List.map_congr_left
        intro s hsm
        have hchars := mem_cleanFrags_chars hsm
        have hlow : s.map lowerChar = s := by
          have hid : ∀ ch ∈ s, lowerChar ch = ch := by
            intro ch hch
            unfold lowerChar
            rw [if_neg ?hcc]
            case hcc =>
              intro hcc
              exact hup ch (hchars ch hch) (by simpa using hcc)
          calc s.map lowerChar = s.map id := List.map_congr_left hid
            _ = s := List.map_id s
        have hver : containsVerbCI s = containsVerbCS s := by
          unfold containsVerbCI
          rw [hlow]
        have hfact : factualS s = factualA s := by
          unfold factualS factualA
          rw [hver]
        have hstrip : stripOneS s = stripOneA s := by
          unfold stripOneS stripOneA
          have h1 : endsIn s '!' = false := by
            unfold endsIn
            cases hl : s.getLast? with
            | none => simp
            | some ch =>
              have hne : ch ≠ '!' := fun hcc =>
                hbang (hcc ▸ hchars ch (mem_of_getLast? hl))
              simp [hne]
          have h2 : endsIn s '?' = false := by
            unfold endsIn
            cases hl : s.getLast? with
            | none => simp
            | some ch =>
              have hne : ch ≠ '?' := fun hcc =>
                hq (hcc ▸ hchars ch (mem_of_getLast? hl))
              simp [hne]
          rw [h1, h2]
          simp
        unfold procA procS
        by_cases h1 : hasCitation s
        · rw [if_pos h1, if_pos h1]
        · rw [if_neg h1, if_neg h1]
          have hcb : hasCitation s = false := by simpa using h1
          by_cases h2 : factualA s
          · rw [if_pos (by rw [h2, hcb]; rfl), if_pos (by rw [hfact, h2]), hstrip]
          · have h2b : factualA s = false := by simpa using h2
            rw [if_neg (by rw [h2b]; simp), if_neg (by rw [hfact, h2b]; simp)]

theorem single_algorithm_equivalence_witness :
    enforceCitations "it has things. ok then".toList "[C1] x".toList =
      enforceCitationsOnAnswer "it has things. ok then".toList "[C1] x".toList :=
  single_algorithm_equivalence "it has things. ok then".toList "[C1] x".toList
    (by decide) (by decide) (by decide)

/-! ### Decimal rendering -/

theorem natDigitsGo_irrel (n : Nat) : ∀ f1 f2 acc, n < f1 → n < f2 →
    natDigitsGo f1 n acc = natDigitsGo f2 n acc := by
  induction n using Nat.strong_induction_on with
  | _ n ih =>
    intro f1 f2 acc h1 h2
    match f1, f2 with
    | f1 + 1, f2 + 1 =>
      rw [natDigitsGo, natDigitsGo]
      by_cases hn : n < 10
      · rw [if_pos hn, if_pos hn]
      · rw [if_neg hn, if_neg hn]
        have hlt : n / 10 < n := Nat.div_lt_self (by omega) (by omega)
        exact ih (n / 10) hlt f1 f2 _ (by omega) (by omega)

theorem natDigitsGo_acc (n : Nat) : ∀ fuel acc, n < fuel →
    natDigitsGo fuel n acc = natDigitsGo fuel n [] ++ acc := by
  induction n using Nat.strong_induction_on with
  | _ n ih =>
    intro fuel acc h
    match fuel with
    | fuel + 1 =>
      rw [natDigitsGo, natDigitsGo]
      by_cases hn : n < 10
      · rw [if_pos hn, if_pos hn]
        rfl
      · rw [if_neg hn, if_neg hn]
        have hlt : n / 10 < n := Nat.div_lt_self (by omega) (by omega)
        have hf : n / 10 < fuel := by omega
        rw [ih (n / 10) hlt fuel (digitChar (n % 10) :: acc) hf,
          ih (n / 10) hlt fuel [digitChar (n % 10)] hf]
        simp

theorem natDigits_lt10 {n : Nat} (h : n < 10) : natDigits n = [digitChar n] := by
  unfold natDigits
  rw [natDigitsGo, if_pos h]

theorem natDigits_ge10 {n : Nat} (h : 10 ≤ n) :
    natDigits n = natDigits (n / 10) ++ [digitChar (n % 10)] := by
  unfold natDigits
  rw [natDigitsGo, if_neg (by omega)]
  have hlt : n / 10 < n := Nat.div_lt_self (by omega) (by omega)
  rw [natDigitsGo_irrel (n / 10) n (n / 10 + 1) _ hlt (by omega)]
  rw [natDigitsGo_acc (n / 10) (n / 10 + 1) _ (by omega)]

theorem digitChar_isDigit {d : Nat} (h : d < 10) : isDigitChar (digitChar d) = true := by
  interval_cases d <;> decide

theorem digitChar_toNat {d : Nat} (h : d < 10) : (digitChar d).toNat = 48 + d := by
  interval_cases d <;> decide

theorem natDigits_all_digits (n : Nat) : ∀ c ∈ natDigits n, isDigitChar c = true := by
  induction n using Nat.strong_induction_on with
  | _ n ih =>
    by_cases hn : n < 10
    · rw [natDigits_lt10 hn]
      intro c hc
      simp only [List.mem_singleton] at hc
      subst hc
      exact digitChar_isDigit hn
    · rw [natDigits_ge10 (by omega)]
      intro c hc
      rw [List.mem_append] at hc
      cases hc with
      | inl h => exact ih (n / 10) (Nat.div_lt_self (by omega) (by omega)) c h
      | inr h =>
        simp only [List.mem_singleton] at h
        subst h
        exact digitChar_isDigit (Nat.mod_lt n (by omega))

theorem natDigits_ne_nil (n : Nat) : natDigits n ≠ [] := by
  by_cases hn : n < 10
  · rw [natDigits_lt10 hn]
    simp
  · rw [natDigits_ge10 (by omega)]
    simp

theorem digitsVal_append_one (l : List Char) (c : Char) :
    digitsVal (l ++ [c]) = 10 * digitsVal l + (c.toNat - 48) := by
  unfold digitsVal
  rw [List.foldl_append]
  rfl

theorem digitsVal_natDigits (n : Nat) : digitsVal (natDigits n) = n := by
  induction n using Nat.strong_induction_on with
  | _ n ih =>
    by_cases hn : n < 10
    · rw [natDigits_lt10 hn]
      show 10 * 0 + ((digitChar n).toNat - 48) = n
      rw [digitChar_toNat hn]
      omega
    · rw [natDigits_ge10 (by omega), digitsVal_append_one,
        ih (n / 10) (Nat.div_lt_self (by omega) (by omega)),
        digitChar_toNat (Nat.mod_lt n (by omega))]
      omega

theorem natDigits_inj {m n : Nat} (h : natDigits m = natDigits n) : m = n := by
  have h2 := congrArg digitsVal h
  rwa [digitsVal_natDigits, digitsVal_natDigits] at h2

/-! ### Serialization -/

theorem serializePartsFrom_cons (i : Nat) (d : Doc) (docs : List Doc) :
    serializePartsFrom i (d :: docs) = renderPart i d :: serializePartsFrom (i + 1) docs :=
  rfl

theorem citationMapFrom_cons (i : Nat) (d : Doc) (docs : List Doc) :
    citationMapFrom i (d :: docs) = (chunkId i, citEntry d) :: citationMapFrom (i + 1) docs :=
  rfl

theorem joinSep_cons_cons (sep x y : List Char) (t : List (List Char)) :
    joinSep sep (x :: y :: t) = x ++ sep ++ joinSep sep (y :: t) :=
  rfl

theorem renderPart_tokens (i : Nat) (d : Doc) (y : List Char)
    (h1 : '[' ∉ d.content) (h2 : '[' ∉ pageText d) :
    findCitations (renderPart i d ++ y) = natDigits (i + 1) :: findCitations y := by
  have hshape : renderPart i d ++ y =
      '[' :: 'C' :: (natDigits (i + 1) ++ ']' ::
        ((" (Page ".toList ++ pageText d ++ [')', '\n'] ++ d.content) ++ y)) := by
    simp [renderPart, chunkId, List.append_assoc]
  rw [hshape, findCitations_token _ (natDigits_ne_nil _) (natDigits_all_digits _)]
  congr 1
  apply findCitations_append_no_bracket
  intro c hc
  rcases List.mem_append.mp hc with h | h
  · rcases List.mem_append.mp h with h | h
    · rcases List.mem_append.mp h with h | h
      · exact (by decide : ∀ x ∈ " (Page ".toList, x ≠ '[') c h
      · intro heq
        subst heq
        exact h2 h
    · intro heq
      subst heq
      revert h
      decide
  · intro heq
    subst heq
    exact h1 h

theorem natDigits_shift_range (n i : Nat) :
    (List.range (n + 1)).map (fun k => natDigits (i + k + 1)) =
      natDigits (i + 1) :: (List.range n).map (fun k => natDigits (i + 1 + k + 1)) := by
  rw [List.range_succ_eq_map, List.map_cons, List.map_map]
  congr 1
  apply List.map_congr_left
  intro k hk
  show natDigits (i + (k + 1) + 1) = natDigits (i + 1 + k + 1)
  congr 1
  omega

theorem findCitations_serializeParts (docs : List Doc) : ∀ i,
    (∀ d ∈ docs, '[' ∉ d.content ∧ '[' ∉ pageText d) →
    findCitations (joinSep "\n\n".toList (serializePartsFrom i docs)) =
      (List.range docs.length).map (fun k => natDigits (i + k + 1)) := by
  induction docs with
  | nil =>
    intro i h
    rfl
  | cons d docs ih =>
    intro i h
    have hd := h d (by simp)
    have hrest : ∀ x ∈ docs, '[' ∉ x.content ∧ '[' ∉ pageText x :=
      fun x hx => h x (by simp [hx])
    rw [serializePartsFrom_cons]
    cases docs with
    | nil =>
      rw [show serializePartsFrom (i + 1) ([] : List Doc) = [] from rfl]
      have h0 := renderPart_tokens i d [] hd.1 hd.2
      rw [List.append_nil] at h0
      rw [show joinSep "\n\n".toList [renderPart i d] = renderPart i d from rfl, h0]
      rfl
    | cons d2 rest2 =>
      rw [serializePartsFrom_cons, joinSep_cons_cons, List.append_assoc,
        ← serializePartsFrom_cons]
      rw [renderPart_tokens i d _ hd.1 hd.2]
      rw [findCitations_append_no_bracket _ (by decide)]
      rw [ih (i + 1) hrest]
      rw [show (d :: d2 :: rest2).length = (d2 :: rest2).length + 1 from rfl]
      rw [natDigits_shift_range]

theorem citationMap_keys (docs : List Doc) : ∀ i,
    (citationMapFrom i docs).map Prod.fst =
      (List.range docs.length).map (fun k => chunkId (i + k)) := by
  induction docs with
  | nil =>
    intro i
    rfl
  | cons d docs ih =>
    intro i
    rw [citationMapFrom_cons, List.map_cons, ih (i + 1),
      List.length_cons, List.range_succ_eq_map, List.map_cons, List.map_map]
    congr 1
    apply List.map_congr_left
    intro k hk
    show chunkId (i + 1 + k) = chunkId (i + (k + 1))
    congr 1
    omega

theorem countP_map_range_inj (g : Nat → List Char)
    (hinj : ∀ x y, g x = g y → x = y) (n k : Nat) :
    ((List.range n).map g).countP (fun t => decide (t = g k)) =
      if k < n then 1 else 0 := by
  induction n with
  | zero => simp
  | succ n ih =>
    rw [List.range_succ, List.map_append, List.countP_append, ih]
    have hterm : List.countP (fun t => decide (t = g k)) (List.map g [n]) =
        if n = k then 1 else 0 := by
      simp only [List.map_cons, List.map_nil, List.countP_cons, List.countP_nil]
      by_cases hgk : g n = g k
      · rw [if_pos (hinj _ _ hgk)]
        simp [hgk]
      · simp only [hgk, decide_False, Bool.false_eq_true, if_false, Nat.zero_add]
        rw [if_neg (fun h => hgk (by rw [h]))]
    rw [hterm]
    split_ifs <;> omega

/-- Claim C8 (corrected): for chunk lists whose contents and page texts
contain no opening bracket, the citation-map keys are exactly
`C1 .. C|docs|` in positional order, the citation tokens of the context
block are exactly `1 .. |docs|` in order, and hence every key `Ck`
appears exactly once as a bracketed token in the context block.  (For
arbitrary chunks the exact-once part is false: a chunk whose content
contains `[C1]` duplicates the token; see the counterexample.) -/
theorem identifier_bijection (docs : List Doc)
    (hfree : ∀ d ∈ docs, '[' ∉ d.content ∧ '[' ∉ pageText d) :
    (serialize_chunks_with_ids docs).2.map Prod.fst =
      (List.range docs.length).map chunkId ∧
    findCitations (serialize_chunks_with_ids docs).1 =
      (List.range docs.length).map (fun k => natDigits (k + 1)) ∧
    ∀ k < docs.length,
      (findCitations (serialize_chunks_with_ids docs).1).countP
        (fun t => decide (t = natDigits (k + 1))) = 1 := by
  have hkeys : (serialize_chunks_with_ids docs).2.map Prod.fst =
      (List.range docs.length).map chunkId := by
    show (citationMapFrom 0 docs).map Prod.fst = _
    rw [citationMap_keys docs 0]
    apply List.map_congr_left
    intro k hk
    show chunkId (0 + k) = chunkId k
    congr 1
    omega
  have htok : findCitations (serialize_chunks_with_ids docs).1 =
      (List.range docs.length).map (fun k => natDigits (k + 1)) := by
    show findCitations (joinSep "\n\n".toList (serializePartsFrom 0 docs)) = _
    rw [findCitations_serializeParts docs 0 hfree]
    apply List.map_congr_left
    intro k hk
    show natDigits (0 + k + 1) = natDigits (k + 1)
    congr 1
    omega
  refine ⟨hkeys, htok, ?_⟩
  intro k hk
  rw [htok]
  rw [countP_map_range_inj (fun k => natDigits (k + 1))
    (fun x y hxy => by have := natDigits_inj hxy; omega) docs.length k]
  rw [if_pos hk]

theorem identifier_bijection_witness :
    (serialize_chunks_with_ids [(⟨"alpha".toList, some "3".toList, none⟩ : Doc),
        ⟨"beta".toList, none, some "s.pdf".toList⟩]).2.map Prod.fst =
      (List.range 2).map chunkId ∧
    findCitations (serialize_chunks_with_ids
        [(⟨"alpha".toList, some "3".toList, none⟩ : Doc),
         ⟨"beta".toList, none, some "s.pdf".toList⟩]).1 =
      (List.range 2).map (fun k => natDigits (k + 1)) :=
  ⟨(identifier_bijection _ (by decide)).1,
   (identifier_bijection _ (by decide)).2.1⟩

/-! ### Sentence splitting: fragment shape -/

theorem isTerm_not_space {c : Char} (h : isTerm c = true) : isPySpace c = false := by
  simp only [isTerm, Bool.or_eq_true, decide_eq_true_eq] at h
  rcases h with (h | h) | h <;> subst h <;> decide

theorem digit_not_space {c : Char} (h : isDigitChar c = true) : isPySpace c = false := by
  by_contra hsp
  have hsp2 : isPySpace c = true := by simpa using hsp
  simp only [isPySpace, Bool.or_eq_true, decide_eq_true_eq] at hsp2
  rcases hsp2 with ((((h2 | h2) | h2) | h2) | h2) | h2 <;> subst h2 <;>
    exact absurd h (by decide)

theorem headIsTerm_reverse (s : List Char) :
    headIsTerm s.reverse = isTermLast s := by
  unfold isTermLast
  cases hr : s.reverse with
  | nil =>
    have : s = [] := by simpa using congrArg List.reverse hr
    subst this
    rfl
  | cons c t =>
    have h1 : s.getLast? = some c := by
      rw [← List.head?_reverse, hr]
      rfl
    rw [h1]
    rfl

theorem skip_eq_go {c : Char} (r : List Char) (h : isPySpace c = false) :
    sentSplitSkip (c :: r) = sentSplitGo [] (c :: r) := by
  rw [sentSplitSkip, sentSplitGo]
  rw [if_neg (by simp [h]), if_neg (by simp [headIsTerm])]

theorem head?_dropWhile {p : Char → Bool} {l : List Char} {ch : Char}
    (h : (l.dropWhile p).head? = some ch) : p ch = false := by
  induction l with
  | nil => simp at h
  | cons c t ih =>
    rw [List.dropWhile_cons] at h
    by_cases hp : p c
    · rw [if_pos hp] at h
      exact ih h
    · rw [if_neg hp] at h
      simp at h
      rw [← h]
      simpa using hp

theorem pyStrip_getLast? {a : List Char} {ch : Char}
    (h : (pyStrip a).getLast? = some ch) : isPySpace ch = false := by
  unfold pyStrip at h
  rw [List.getLast?_reverse] at h
  exact head?_dropWhile h

theorem pyStrip_head? {a : List Char} {ch : Char}
    (h : (pyStrip a).head? = some ch) : isPySpace ch = false := by
  unfold pyStrip at h
  rw [List.head?_reverse] at h
  -- ch is the last element of dropWhile p X where X = (dropWhile p a).reverse
  set X := (a.dropWhile isPySpace).reverse with hX
  have hsuf : ∃ u, u ++ (X.dropWhile isPySpace) = X :=
    ⟨X.takeWhile isPySpace, List.takeWhile_append_dropWhile isPySpace X⟩
  obtain ⟨u, hu⟩ := hsuf
  have hne : X.dropWhile isPySpace ≠ [] := by
    intro hnil
    rw [hnil] at h
    simp at h
  have h2 : X.getLast? = some ch := by
    rw [← hu, List.getLast?_append]
    cases hgl : (X.dropWhile isPySpace).getLast? with
    | none => exact absurd (List.getLast?_eq_none_iff.mp hgl) hne
    | some c2 =>
      rw [hgl] at h
      simp at h
      subst h
      rfl
  rw [hX, List.getLast?_reverse] at h2
  exact head?_dropWhile h2

theorem pyStrip_eq_self {s : List Char}
    (h1 : ∀ ch ∈ s.head?, isPySpace ch = false)
    (h2 : ∀ ch ∈ s.getLast?, isPySpace ch = false) :
    pyStrip s = s := by
  unfold pyStrip
  have hd : s.dropWhile isPySpace = s := by
    cases hs : s with
    | nil => rfl
    | cons c t =>
      rw [List.dropWhile_cons, if_neg ?hnc]
      case hnc =>
        have := h1 c (by rw [hs]; rfl)
        simp [this]
  rw [hd]
  have hr : s.reverse.dropWhile isPySpace = s.reverse := by
    cases hs : s.reverse with
    | nil => rfl
    | cons c t =>
      rw [List.dropWhile_cons, if_neg ?hnc2]
      case hnc2 =>
        have hc : s.getLast? = some c := by
          rw [← List.head?_reverse, hs]
          rfl
        have := h2 c (by rw [hc]; rfl)
        simp [this]
  rw [hr, List.reverse_reverse]

theorem getLast?_cons_of_ne {c : Char} {acc : List Char} (h : acc ≠ []) :
    (c :: acc).getLast? = acc.getLast? := by
  cases acc with
  | nil => exact absurd rfl h
  | cons x t => exact List.getLast?_cons_cons

theorem sentSplit_ne_nil : ∀ n (l : List Char), l.length ≤ n →
    (∀ acc, sentSplitGo acc l ≠ []) ∧ sentSplitSkip l ≠ [] := by
  intro n
  induction n with
  | zero =>
    intro l hl
    have hnil := List.length_eq_zero.mp (Nat.le_zero.mp hl)
    subst hnil
    exact ⟨fun acc => by simp [sentSplitGo], by simp [sentSplitSkip]⟩
  | succ n ih =>
    intro l hl
    constructor
    · intro acc
      cases l with
      | nil => simp [sentSplitGo]
      | cons c rest =>
        have hr : rest.length ≤ n := by
          simp only [List.length_cons] at hl
          omega
        rw [sentSplitGo]
        by_cases hb : isPySpace c && headIsTerm acc
        · rw [if_pos hb]
          simp
        · rw [if_neg hb]
          exact (ih rest hr).1 (c :: acc)
    · cases l with
      | nil => simp [sentSplitSkip]
      | cons c rest =>
        have hr : rest.length ≤ n := by
          simp only [List.length_cons] at hl
          omega
        rw [sentSplitSkip]
        by_cases hsp : isPySpace c
        · rw [if_pos hsp]
          exact (ih rest hr).2
        · rw [if_neg hsp]
          exact (ih rest hr).1 [c]

theorem sentSplit_good : ∀ n : Nat,
    (∀ l : List Char, l.length ≤ n → ∀ acc : List Char, acc ≠ [] →
      (∀ ch ∈ acc.getLast?, isPySpace ch = false) →
      List.Chain' noBoundary acc.reverse →
      (l = [] → ∀ ch ∈ acc.head?, isPySpace ch = false) →
      (l ≠ [] → ∀ ch ∈ l.getLast?, isPySpace ch = false) →
      (∀ t ∈ sentSplitGo acc l, GoodFrag t) ∧
      (∀ t ∈ (sentSplitGo acc l).dropLast, isTermLast t = true)) ∧
    (∀ l : List Char, l.length ≤ n → l ≠ [] →
      (∀ ch ∈ l.getLast?, isPySpace ch = false) →
      (∀ t ∈ sentSplitSkip l, GoodFrag t) ∧
      (∀ t ∈ (sentSplitSkip l).dropLast, isTermLast t = true)) := by
  intro n
  induction n with
  | zero =>
    constructor
    · intro l hl acc hacc hlast hchain hemp _
      have hnil := List.length_eq_zero.mp (Nat.le_zero.mp hl)
      subst hnil
      constructor
      · intro t ht
        simp only [sentSplitGo, List.mem_singleton] at ht
        subst ht
        refine ⟨by simpa using hacc, ?_, ?_, by simpa using hchain⟩
        · intro ch hch
          rw [List.head?_reverse] at hch
          exact hlast ch hch
        · intro ch hch
          rw [List.getLast?_reverse] at hch
          exact hemp rfl ch hch
      · intro t ht
        simp only [sentSplitGo, List.dropLast_single] at ht
        exact absurd ht (by simp)
    · intro l hl hlnil _
      have hnil := List.length_eq_zero.mp (Nat.le_zero.mp hl)
      exact absurd hnil hlnil
  | succ n ih =>
    constructor
    · intro l hl acc hacc hlast hchain hemp hlne
      cases l with
      | nil =>
        constructor
        · intro t ht
          simp only [sentSplitGo, List.mem_singleton] at ht
          subst ht
          refine ⟨by simpa using hacc, ?_, ?_, by simpa using hchain⟩
          · intro ch hch
            rw [List.head?_reverse] at hch
            exact hlast ch hch
          · intro ch hch
            rw [List.getLast?_reverse] at hch
            exact hemp rfl ch hch
        · intro t ht
          simp only [sentSplitGo, List.dropLast_single] at ht
          exact absurd ht (by simp)
      | cons c rest =>
        have hr : rest.length ≤ n := by
          simp only [List.length_cons] at hl
          omega
        rw [sentSplitGo]
        by_cases hb : isPySpace c && headIsTerm acc
        · rw [if_pos hb]
          rw [Bool.and_eq_true] at hb
          have hrestne : rest ≠ [] := by
            intro hrnil
            subst hrnil
            have := hlne (by simp) c (by simp)
            rw [this] at hb
            exact absurd hb.1 (by simp)
          have hrestlast : ∀ ch ∈ rest.getLast?, isPySpace ch = false := by
            intro ch hch
            refine hlne (by simp) ch ?_
            rw [getLast?_cons_of_ne hrestne]
            exact hch
          have hskip := (ih.2 rest hr hrestne hrestlast)
          have haccrev : GoodFrag acc.reverse := by
            refine ⟨by simpa using hacc, ?_, ?_, by simpa using hchain⟩
            · intro ch hch
              rw [List.head?_reverse] at hch
              exact hlast ch hch
            · intro ch hch
              rw [List.getLast?_reverse] at hch
              -- acc.head is a terminator, hence not a space
              cases hh : acc with
              | nil => exact absurd hh hacc
              | cons h0 t0 =>
                rw [hh] at hch
                simp only [List.head?_cons, Option.mem_def, Option.some.injEq] at hch
                have hterm : isTerm h0 = true := by
                  have hb2 := hb.2
                  rw [hh] at hb2
                  simpa [headIsTerm] using hb2
                rw [← hch]
                exact isTerm_not_space hterm
          constructor
          · intro t ht
            rcases List.mem_cons.mp ht with rfl | ht2
            · exact haccrev
            · exact (hskip.1 t ht2)
          · intro t ht
            have hne2 := (sentSplit_ne_nil rest.length rest le_rfl).2
            rw [List.dropLast_cons_of_ne_nil hne2] at ht
            rcases List.mem_cons.mp ht with rfl | ht2
            · -- acc.reverse ends with the terminator acc.head
              rw [show isTermLast acc.reverse = headIsTerm acc from by
                rw [← headIsTerm_reverse acc.reverse, List.reverse_reverse]]
              exact hb.2
            · exact hskip.2 t ht2
        · rw [if_neg hb]
          have hchain2 : List.Chain' noBoundary (c :: acc).reverse := by
            rw [List.reverse_cons]
            rw [List.chain'_append]
            refine ⟨by simpa using hchain, by simp, ?_⟩
            intro x hx y hy
            simp only [List.head?_cons, Option.mem_def, Option.some.injEq] at hy
            subst hy
            rw [List.getLast?_reverse] at hx
            unfold noBoundary
            intro hcon
            apply hb
            rw [Bool.and_eq_true]
            refine ⟨hcon.2, ?_⟩
            cases hh : acc with
            | nil => exact absurd hh hacc
            | cons h0 t0 =>
              rw [hh] at hx
              simp only [List.head?_cons, Option.mem_def, Option.some.injEq] at hx
              subst hx
              simpa [headIsTerm] using hcon.1
          have hgoal := (ih.1 rest hr (c :: acc) (by simp) ?hl2 hchain2 ?hemp2 ?hlne2)
          case hl2 =>
            rw [getLast?_cons_of_ne hacc]
            exact hlast
          case hemp2 =>
            intro hrnil ch hch
            subst hrnil
            have hc : isPySpace c = false := hlne (by simp) c (by simp)
            simp only [List.head?_cons, Option.mem_def, Option.some.injEq] at hch
            rw [← hch]
            exact hc
          case hlne2 =>
            intro hrne ch hch
            refine hlne (by simp) ch ?_
            rw [getLast?_cons_of_ne hrne]
            exact hch
          exact hgoal
      -- end go part
    · intro l hl hlnil hlast
      cases l with
      | nil => exact absurd rfl hlnil
      | cons c rest =>
        have hr : rest.length ≤ n := by
          simp only [List.length_cons] at hl
          omega
        rw [sentSplitSkip]
        by_cases hsp : isPySpace c
        · rw [if_pos hsp]
          have hrestne : rest ≠ [] := by
            intro hrnil
            subst hrnil
            have := hlast c (by simp)
            rw [this] at hsp
            exact absurd hsp (by simp)
          refine ih.2 rest hr hrestne ?_
          intro ch hch
          refine hlast ch ?_
          rw [getLast?_cons_of_ne hrestne]
          exact hch
        · rw [if_neg hsp]
          refine ih.1 rest hr [c] (by simp) ?_ (by simp) ?_ ?_
          · intro ch hch
            simp only [List.getLast?_singleton, Option.mem_def, Option.some.injEq] at hch
            rw [← hch]
            simpa using hsp
          · intro hrnil ch hch
            simp only [List.head?_cons, Option.mem_def, Option.some.injEq] at hch
            rw [← hch]
            simpa using hsp
          · intro hrne ch hch
            refine hlast ch ?_
            rw [getLast?_cons_of_ne hrne]
            exact hch

theorem pySplit_good {L : List Char} (hne : L ≠ [])
    (hhead : ∀ ch ∈ L.head?, isPySpace ch = false)
    (hlast : ∀ ch ∈ L.getLast?, isPySpace ch = false) :
    (∀ t ∈ pySplit L, GoodFrag t) ∧
    (∀ t ∈ (pySplit L).dropLast, isTermLast t = true) := by
  cases L with
  | nil => exact absurd rfl hne
  | cons c rest =>
    have hcns : isPySpace c = false := hhead c (by simp)
    unfold pySplit
    rw [sentSplitGo, if_neg (by simp [headIsTerm])]
    refine (sentSplit_good rest.length).1 rest le_rfl [c] (by simp) ?_ (by simp) ?_ ?_
    · intro ch hch
      simp only [List.getLast?_singleton, Option.mem_def, Option.some.injEq] at hch
      rw [← hch]
      exact hcns
    · intro _ ch hch
      simp only [List.head?_cons, Option.mem_def, Option.some.injEq] at hch
      rw [← hch]
      exact hcns
    · intro hrne ch hch
      refine hlast ch ?_
      rw [getLast?_cons_of_ne hrne]
      exact hch

theorem cleanFrags_eq_pySplit {a : List Char} (hne : pyStrip a ≠ []) :
    cleanFrags a = pySplit (pyStrip a) := by
  have hgood := (pySplit_good hne (fun ch hch => pyStrip_head? hch)
    (fun ch hch => pyStrip_getLast? hch)).1
  unfold cleanFrags
  have hmap : (pySplit (pyStrip a)).map pyStrip = pySplit (pyStrip a) := by
    have h1 : (pySplit (pyStrip a)).map pyStrip = (pySplit (pyStrip a)).map id :=
      List.map_congr_left (fun t ht => pyStrip_eq_self (hgood t ht).2.1 (hgood t ht).2.2.1)
    rw [h1, List.map_id]
  rw [hmap]
  apply List.filter_eq_self.mpr
  intro t ht
  have := (hgood t ht).1
  simpa [List.isEmpty_iff] using this

theorem cleanFrags_good {a : List Char} (hne : pyStrip a ≠ []) :
    (∀ t ∈ cleanFrags a, GoodFrag t) ∧
    (∀ t ∈ (cleanFrags a).dropLast, isTermLast t = true) := by
  rw [cleanFrags_eq_pySplit hne]
  exact pySplit_good hne (fun ch hch => pyStrip_head? hch)
    (fun ch hch => pyStrip_getLast? hch)

theorem joinSep_ne_nil {frags : List (List Char)} (hf : frags ≠ [])
    (h : ∀ t ∈ frags, t ≠ []) : joinSep [' '] frags ≠ [] := by
  cases frags with
  | nil => exact absurd rfl hf
  | cons s rest =>
    have hs := h s (by simp)
    cases s with
    | nil => exact absurd rfl hs
    | cons c t =>
      cases rest with
      | nil => simp [joinSep]
      | cons y ys =>
        rw [joinSep_cons_cons]
        simp

theorem joinSep_head_nonspace {frags : List (List Char)}
    (h : ∀ t ∈ frags, GoodFrag t) :
    ∀ ch ∈ (joinSep [' '] frags).head?, isPySpace ch = false := by
  cases frags with
  | nil => simp [joinSep]
  | cons s rest =>
    obtain ⟨hne, hh, -, -⟩ := h s (by simp)
    cases s with
    | nil => exact absurd rfl hne
    | cons c t =>
      have hc : isPySpace c = false := hh c rfl
      cases rest with
      | nil =>
        intro ch hch
        rw [show joinSep [' '] [c :: t] = c :: t from rfl] at hch
        simp only [List.head?_cons, Option.mem_def, Option.some.injEq] at hch
        rw [← hch]
        exact hc
      | cons y ys =>
        intro ch hch
        rw [joinSep_cons_cons] at hch
        simp only [List.cons_append, List.head?_cons, Option.mem_def,
          Option.some.injEq] at hch
        rw [← hch]
        exact hc

theorem joinSep_last_nonspace {frags : List (List Char)}
    (h : ∀ t ∈ frags, GoodFrag t) :
    ∀ ch ∈ (joinSep [' '] frags).getLast?, isPySpace ch = false := by
  induction frags with
  | nil => simp [joinSep]
  | cons s rest ih =>
    have hs := h s (by simp)
    cases rest with
    | nil =>
      intro ch hch
      rw [show joinSep [' '] [s] = s from rfl] at hch
      exact hs.2.2.1 ch hch
    | cons y ys =>
      intro ch hch
      rw [joinSep_cons_cons, List.getLast?_append, List.getLast?_append] at hch
      have hJne : joinSep [' '] (y :: ys) ≠ [] :=
        joinSep_ne_nil (by simp) (fun t ht => (h t (by simp [ht])).1)
      obtain ⟨x, hx⟩ : ∃ x, (joinSep [' '] (y :: ys)).getLast? = some x := by
        cases hg : (joinSep [' '] (y :: ys)).getLast? with
        | none => exact absurd (List.getLast?_eq_none_iff.mp hg) hJne
        | some x => exact ⟨x, rfl⟩
      rw [hx] at hch
      have hch2 : x = ch := by
        simpa using hch
      rw [← hch2]
      exact ih (fun t ht => h t (by simp [ht])) x hx

theorem walk : ∀ (s acc r : List Char), List.Chain' noBoundary s →
    (∀ ch ∈ s.head?, isPySpace ch = true → headIsTerm acc = false) →
    sentSplitGo acc (s ++ r) = sentSplitGo (s.reverse ++ acc) r := by
  intro s
  induction s with
  | nil =>
    intro acc r _ _
    simp
  | cons c t ih =>
    intro acc r hch hsafe
    rw [List.cons_append, sentSplitGo]
    have hng : ¬(isPySpace c && headIsTerm acc) = true := by
      intro hb
      rw [Bool.and_eq_true] at hb
      have h0 := hsafe c rfl hb.1
      rw [h0] at hb
      exact absurd hb.2 (by simp)
    rw [if_neg hng]
    rw [ih (c :: acc) r hch.tail ?hsafe2]
    · congr 1
      simp
    case hsafe2 =>
      intro ch hch2 hsp
      cases t with
      | nil => simp at hch2
      | cons x t2 =>
        simp only [List.head?_cons, Option.mem_def, Option.some.injEq] at hch2
        have hR := (List.chain'_cons.mp hch).1
        unfold noBoundary at hR
        show headIsTerm (c :: acc) = false
        simp only [headIsTerm]
        by_cases hterm : isTerm c = true
        · exfalso
          apply hR
          refine ⟨hterm, ?_⟩
          rw [← hch2] at hsp
          exact hsp
        · simpa using hterm
    -- end

theorem resplit : ∀ frags : List (List Char),
    (∀ t ∈ frags, GoodFrag t) →
    (∀ t ∈ frags.dropLast, isTermLast t = true) →
    frags ≠ [] →
    pySplit (joinSep [' '] frags) = frags := by
  intro frags
  induction frags with
  | nil =>
    intro _ _ h
    exact absurd rfl h
  | cons s rest ih =>
    intro hgood hterm _
    obtain ⟨hne, hh, hl, hchain⟩ := hgood s (by simp)
    have hsafe : ∀ acc : List Char, ∀ ch ∈ s.head?, isPySpace ch = true →
        headIsTerm acc = false := by
      intro acc ch hch hsp
      exact absurd hsp (by rw [hh ch hch]; simp)
    cases rest with
    | nil =>
      show sentSplitGo [] (joinSep [' '] [s]) = [s]
      rw [show joinSep [' '] [s] = s from rfl]
      have hw := walk s [] [] hchain (hsafe [])
      rw [List.append_nil, List.append_nil] at hw
      rw [hw, sentSplitGo, List.reverse_reverse]
    | cons s2 rest2 =>
      have htermS : isTermLast s = true := by
        refine hterm s ?_
        rw [show (s :: s2 :: rest2).dropLast = s :: (s2 :: rest2).dropLast from rfl]
        simp
      rw [joinSep_cons_cons]
      show sentSplitGo [] ((s ++ [' ']) ++ joinSep [' '] (s2 :: rest2)) = _
      rw [List.append_assoc]
      rw [show ([' '] ++ joinSep [' '] (s2 :: rest2) : List Char) =
        ' ' :: joinSep [' '] (s2 :: rest2) from rfl]
      have hw := walk s [] (' ' :: joinSep [' '] (s2 :: rest2)) hchain (hsafe [])
      rw [List.append_nil] at hw
      rw [hw, sentSplitGo]
      rw [if_pos ?hbd]
      case hbd =>
        rw [Bool.and_eq_true]
        refine ⟨by decide, ?_⟩
        rw [headIsTerm_reverse]
        exact htermS
      rw [List.reverse_reverse]
      congr 1
      -- sentSplitSkip (joinSep (s2 :: rest2)) = s2 :: rest2
      have hJhead := @joinSep_head_nonspace (s2 :: rest2)
        (fun t ht => hgood t (by simp [ht]))
      have hJne : joinSep [' '] (s2 :: rest2) ≠ [] :=
        joinSep_ne_nil (by simp) (fun t ht => (hgood t (by simp [ht])).1)
      obtain ⟨c0, J0, hJ⟩ : ∃ c0 J0, joinSep [' '] (s2 :: rest2) = c0 :: J0 := by
        cases hj : joinSep [' '] (s2 :: rest2) with
        | nil => exact absurd hj hJne
        | cons c0 J0 => exact ⟨c0, J0, rfl⟩
      rw [hJ, skip_eq_go J0 ?hc0, ← hJ]
      case hc0 =>
        refine hJhead c0 ?_
        rw [hJ]
        rfl
      refine ih (fun t ht => hgood t (by simp [ht])) ?_ (by simp)
      intro t ht
      refine hterm t ?_
      rw [show (s :: s2 :: rest2).dropLast = s :: (s2 :: rest2).dropLast from rfl]
      simp [ht]

/-! ### Shape of processed fragments -/

theorem chain'_dropLast {R : Char → Char → Prop} {l : List Char}
    (h : List.Chain' R l) : List.Chain' R l.dropLast := by
  by_cases hnil : l = []
  · subst hnil
    simp
  · conv at h => rw [← List.dropLast_append_getLast hnil]
    exact (List.chain'_append.mp h).1

theorem chain'_noBoundary_of_nonspace : ∀ l : List Char,
    (∀ b ∈ l, isPySpace b = false) → ∀ a, List.Chain' noBoundary (a :: l) := by
  intro l
  induction l with
  | nil =>
    intro _ a
    simp
  | cons b t ih =>
    intro h a
    rw [List.chain'_cons]
    refine ⟨?_, ih (fun x hx => h x (by simp [hx])) b⟩
    intro hcon
    rw [h b (by simp)] at hcon
    exact absurd hcon.2 (by simp)

theorem citTail_chain {f : List Char} (hfd : ∀ c ∈ f, isDigitChar c) :
    List.Chain' noBoundary (citTail f) := by
  unfold citTail
  apply chain'_noBoundary_of_nonspace
  intro b hb
  have hb2 : b = '[' ∨ b = 'C' ∨ b ∈ f ∨ b = ']' ∨ b = '.' := by
    simpa [citToken, or_assoc] using hb
  rcases hb2 with hb2 | hb2 | hb2 | hb2 | hb2
  · rw [hb2]; decide
  · rw [hb2]; decide
  · exact digit_not_space (hfd b hb2)
  · rw [hb2]; decide
  · rw [hb2]; decide

theorem citTail_getLast? (f : List Char) : (citTail f).getLast? = some '.' := by
  have h : citTail f = (' ' :: citToken f) ++ ['.'] := by
    simp [citTail]
  rw [h, List.getLast?_concat]

theorem citTail_head? (f : List Char) : (citTail f).head? = some ' ' := rfl

theorem stripOne_head {s s2 : List Char} (hs2 : s2 = s ∨ s2 = s.dropLast)
    (hs2ne : s2 ≠ []) : s2.head? = s.head? := by
  rcases hs2 with rfl | hdl
  · rfl
  · cases s with
    | nil =>
      rw [show ([] : List Char).dropLast = [] from rfl] at hdl
      exact absurd hdl hs2ne
    | cons c t =>
      cases t with
      | nil =>
        rw [show ([c] : List Char).dropLast = [] from rfl] at hdl
        exact absurd hdl hs2ne
      | cons d t2 =>
        rw [hdl]
        rfl

theorem dropLast_eq_nil_cases {s : List Char} (h : s.dropLast = []) :
    s = [] ∨ ∃ c, s = [c] := by
  cases s with
  | nil => exact Or.inl rfl
  | cons c t =>
    cases t with
    | nil => exact Or.inr ⟨c, rfl⟩
    | cons d t2 => simp at h

theorem stripOneA_ne_nil {s : List Char} (hne : s ≠ []) (hf : factualA s = true) :
    stripOneA s ≠ [] := by
  unfold stripOneA
  by_cases h : endsIn s '.'
  · rw [if_pos h]
    intro hnil
    rcases dropLast_eq_nil_cases hnil with rfl | ⟨c, rfl⟩
    · exact hne rfl
    · unfold endsIn at h
      have hc : c = '.' := by simpa using h
      subst hc
      exact absurd hf (by decide)
  · rw [if_neg h]
    exact hne

theorem stripOneS_ne_nil {s : List Char} (hne : s ≠ []) (hf : factualS s = true) :
    stripOneS s ≠ [] := by
  unfold stripOneS
  by_cases h : endsIn s '.' || endsIn s '!' || endsIn s '?'
  · rw [if_pos h]
    intro hnil
    rcases dropLast_eq_nil_cases hnil with rfl | ⟨c, rfl⟩
    · exact hne rfl
    · rw [Bool.or_eq_true, Bool.or_eq_true] at h
      unfold endsIn at h
      rcases h with (h | h) | h <;>
        (have hc := of_decide_eq_true h
         simp only [List.getLast?_singleton, Option.some.injEq] at hc
         subst hc
         exact absurd hf (by decide))
  · rw [if_neg h]
    exact hne

theorem appended_good {s s2 f : List Char} (hfd : ∀ c ∈ f, isDigitChar c)
    (hgood : GoodFrag s) (hs2 : s2 = s ∨ s2 = s.dropLast) (hs2ne : s2 ≠ [])
    (hterm2 : isTermLast s2 = false) :
    GoodFrag (s2 ++ citTail f) ∧ isTermLast (s2 ++ citTail f) = true := by
  obtain ⟨hne, hh, hl, hchain⟩ := hgood
  have hlastapp : (s2 ++ citTail f).getLast? = some '.' := by
    rw [List.getLast?_append, citTail_getLast?]
    rfl
  constructor
  · refine ⟨by simp [citTail], ?_, ?_, ?_⟩
    · intro ch hch
      rw [List.head?_append, stripOne_head hs2 hs2ne] at hch
      cases hs : s with
      | nil => exact absurd hs hne
      | cons c t =>
        rw [hs] at hch
        have hch2 : c = ch := by simpa using hch
        rw [← hch2]
        refine hh c ?_
        rw [hs]
        rfl
    · intro ch hch
      rw [hlastapp] at hch
      simp only [Option.mem_def, Option.some.injEq] at hch
      rw [← hch]
      decide
    · rw [List.chain'_append]
      refine ⟨?_, citTail_chain hfd, ?_⟩
      · rcases hs2 with rfl | hdl
        · exact hchain
        · rw [hdl]
          exact chain'_dropLast hchain
      · intro x hx y hy
        have hx2 : s2.getLast? = some x := hx
        unfold noBoundary
        intro hcon
        have ht : isTermLast s2 = true := by
          unfold isTermLast
          rw [hx2]
          exact hcon.1
        rw [hterm2] at ht
        exact absurd ht (by simp)
  · unfold isTermLast
    rw [hlastapp]
    decide

theorem procA_good {f s : List Char} (hfd : ∀ c ∈ f, isDigitChar c)
    (hgood : GoodFrag s)
    (hX : hasCitation s = false → factualA s = true →
      isTermLast (stripOneA s) = false) :
    GoodFrag (procA f s) ∧ (isTermLast s = true → isTermLast (procA f s) = true) := by
  unfold procA
  by_cases h1 : hasCitation s
  · rw [if_pos h1]
    exact ⟨hgood, fun h => h⟩
  · rw [if_neg h1]
    have hcb : hasCitation s = false := by simpa using h1
    by_cases h2 : factualA s && !hasCitation s
    · rw [if_pos h2]
      have hf2 : factualA s = true := by
        rw [Bool.and_eq_true] at h2
        exact h2.1
      have happ := appended_good hfd hgood (stripOneA_cases s)
        (stripOneA_ne_nil hgood.1 hf2) (hX hcb hf2)
      exact ⟨happ.1, fun _ => happ.2⟩
    · rw [if_neg h2]
      exact ⟨hgood, fun h => h⟩

theorem procS_good {f s : List Char} (hfd : ∀ c ∈ f, isDigitChar c)
    (hgood : GoodFrag s)
    (hX : hasCitation s = false → factualS s = true →
      isTermLast (stripOneS s) = false) :
    GoodFrag (procS f s) ∧ (isTermLast s = true → isTermLast (procS f s) = true) := by
  unfold procS
  by_cases h1 : hasCitation s
  · rw [if_pos h1]
    exact ⟨hgood, fun h => h⟩
  · rw [if_neg h1]
    have hcb : hasCitation s = false := by simpa using h1
    by_cases h2 : factualS s
    · rw [if_pos h2]
      have happ := appended_good hfd hgood (stripOneS_cases s)
        (stripOneS_ne_nil hgood.1 h2) (hX hcb h2)
      exact ⟨happ.1, fun _ => happ.2⟩
    · rw [if_neg h2]
      exact ⟨hgood, fun h => h⟩

theorem procA_idem {f s : List Char} (hfd : ∀ c ∈ f, isDigitChar c) (hfne : f ≠ []) :
    procA f (procA f s) = procA f s := by
  by_cases h1 : hasCitation s
  · have hs : procA f s = s := by
      unfold procA
      rw [if_pos h1]
    rw [hs, hs]
  · by_cases h2 : factualA s && !hasCitation s
    · have hs : procA f s = stripOneA s ++ citTail f := by
        unfold procA
        rw [if_neg h1, if_pos h2]
      rw [hs]
      unfold procA
      rw [if_pos (hasCitation_append_citTail _ f hfne hfd)]
    · have hs : procA f s = s := by
        unfold procA
        rw [if_neg h1, if_neg h2]
      rw [hs, hs]

theorem procS_idem {f s : List Char} (hfd : ∀ c ∈ f, isDigitChar c) (hfne : f ≠ []) :
    procS f (procS f s) = procS f s := by
  by_cases h1 : hasCitation s
  · have hs : procS f s = s := by
      unfold procS
      rw [if_pos h1]
    rw [hs, hs]
  · by_cases h2 : factualS s
    · have hs : procS f s = stripOneS s ++ citTail f := by
        unfold procS
        rw [if_neg h1, if_pos h2]
      rw [hs]
      unfold procS
      rw [if_pos (hasCitation_append_citTail _ f hfne hfd)]
    · have hs : procS f s = s := by
        unfold procS
        rw [if_neg h1, if_neg h2]
      rw [hs, hs]

theorem cleanFrags_ne_nil {a : List Char} (hemp : pyStrip a ≠ []) :
    cleanFrags a ≠ [] := by
  rw [cleanFrags_eq_pySplit hemp]
  exact (sentSplit_ne_nil (pyStrip a).length (pyStrip a) le_rfl).1 []

/-- Claim C4 (corrected): neither pass is idempotent in general (see the
counterexample), but both are idempotent on every (answer, context) whose
uncited factual sentences, after the one-terminator strip, no longer end
with a terminator, provided the once-enforced answer does not contain the
sentinel substring.  Under these conditions re-splitting the enforced
answer reproduces its fragments, each of which the second pass keeps. -/
theorem enforcement_idempotence (a c : List Char)
    (hA : ∀ s ∈ cleanFrags a, hasCitation s = false → factualA s = true →
      isTermLast (stripOneA s) = false)
    (hS : ∀ s ∈ cleanFrags a, hasCitation s = false → factualS s = true →
      isTermLast (stripOneS s) = false)
    (hoA : containsSub noInfoSub (enforceCitations a c) = false)
    (hoS : containsSub noInfoSub (enforceCitationsOnAnswer a c) = false) :
    enforceCitations (enforceCitations a c) c = enforceCitations a c ∧
    enforceCitationsOnAnswer (enforceCitationsOnAnswer a c) c =
      enforceCitationsOnAnswer a c := by
  cases hfc : findCitations c with
  | nil =>
    constructor
    · rw [enforceCitations_eq_nil a hfc, enforceCitations_eq_nil a hfc]
    · rw [enforceCitationsOnAnswer_eq_nil a hfc, enforceCitationsOnAnswer_eq_nil a hfc]
  | cons f rest =>
    have hfmem : f ∈ findCitations c := by
      rw [hfc]
      simp
    obtain ⟨hfne, hfd, -⟩ := findCitations_sound hfmem
    by_cases hsen : containsSub noInfoSub a
    · exfalso
      have h1 : enforceCitations a c = a := by
        unfold enforceCitations
        rw [if_pos hsen]
      rw [h1] at hoA
      rw [hoA] at hsen
      exact absurd hsen (by simp)
    · have hsb : containsSub noInfoSub a = false := by simpa using hsen
      by_cases hemp : pyStrip a = []
      · have hcf : cleanFrags a = [] := by
          unfold cleanFrags
          rw [hemp]
          rfl
        constructor
        · rw [enforceCitations_eq a hfc hsb, hcf]
          rw [show joinSep [' '] (([] : List (List Char)).map (procA f)) = [] from rfl]
          rw [enforceCitations_eq ([] : List Char) hfc (by decide)]
          rw [show cleanFrags ([] : List Char) = [] from rfl]
          rfl
        · by_cases he : a.isEmpty
          · have hq : enforceCitationsOnAnswer a c = a := by
              unfold enforceCitationsOnAnswer
              rw [if_pos he]
            rw [hq, hq]
          · have heb : a.isEmpty = false := by simpa using he
            rw [enforceCitationsOnAnswer_eq a hfc hsb heb, hcf]
            rw [show joinSep [' '] (([] : List (List Char)).map (procS f)) = [] from rfl]
            unfold enforceCitationsOnAnswer
            rw [if_pos (show (List.isEmpty ([] : List Char)) = true from rfl)]
      · have hane : a.isEmpty = false := by
          cases a with
          | nil => exact absurd rfl hemp
          | cons x t => rfl
        have hgood := cleanFrags_good hemp
        have hfrne : cleanFrags a ≠ [] := cleanFrags_ne_nil hemp
        constructor
        · -- node version
          have hgA : ∀ t ∈ (cleanFrags a).map (procA f), GoodFrag t := by
            intro t ht
            obtain ⟨s, hsm, rfl⟩ := List.mem_map.mp ht
            exact (procA_good hfd (hgood.1 s hsm) (hA s hsm)).1
          have htA : ∀ t ∈ ((cleanFrags a).map (procA f)).dropLast,
              isTermLast t = true := by
            intro t ht
            rw [← List.map_dropLast] at ht
            obtain ⟨s, hsm, rfl⟩ := List.mem_map.mp ht
            have hsm2 : s ∈ cleanFrags a := (List.dropLast_sublist _).subset hsm
            exact (procA_good hfd (hgood.1 s hsm2) (hA s hsm2)).2 (hgood.2 s hsm)
          have hFAne : (cleanFrags a).map (procA f) ≠ [] := by
            simpa [List.map_eq_nil] using hfrne
          have hoA_eq : enforceCitations a c =
              joinSep [' '] ((cleanFrags a).map (procA f)) :=
            enforceCitations_eq a hfc hsb
          have h2 : enforceCitations (enforceCitations a c) c =
              joinSep [' '] ((cleanFrags (enforceCitations a c)).map (procA f)) :=
            enforceCitations_eq _ hfc hoA
          have hone : pyStrip (enforceCitations a c) = enforceCitations a c := by
            rw [hoA_eq]
            exact pyStrip_eq_self (joinSep_head_nonspace hgA) (joinSep_last_nonspace hgA)
          have honne : pyStrip (enforceCitations a c) ≠ [] := by
            rw [hone, hoA_eq]
            exact joinSep_ne_nil hFAne (fun t ht => (hgA t ht).1)
          have hcfo : cleanFrags (enforceCitations a c) =
              (cleanFrags a).map (procA f) := by
            rw [cleanFrags_eq_pySplit honne, hone, hoA_eq]
            exact resplit _ hgA htA hFAne
          rw [h2, hcfo, List.map_map]
          rw [List.map_congr_left
            (fun s _ => show (procA f ∘ procA f) s = procA f s from procA_idem hfd hfne)]
          rw [← hoA_eq]
        · -- service version
          have hgS : ∀ t ∈ (cleanFrags a).map (procS f), GoodFrag t := by
            intro t ht
            obtain ⟨s, hsm, rfl⟩ := List.mem_map.mp ht
            exact (procS_good hfd (hgood.1 s hsm) (hS s hsm)).1
          have htS : ∀ t ∈ ((cleanFrags a).map (procS f)).dropLast,
              isTermLast t = true := by
            intro t ht
            rw [← List.map_dropLast] at ht
            obtain ⟨s, hsm, rfl⟩ := List.mem_map.mp ht
            have hsm2 : s ∈ cleanFrags a := (List.dropLast_sublist _).subset hsm
            exact (procS_good hfd (hgood.1 s hsm2) (hS s hsm2)).2 (hgood.2 s hsm)
          have hFSne : (cleanFrags a).map (procS f) ≠ [] := by
            simpa [List.map_eq_nil] using hfrne
          have hoS_eq : enforceCitationsOnAnswer a c =
              joinSep [' '] ((cleanFrags a).map (procS f)) :=
            enforceCitationsOnAnswer_eq a hfc hsb hane
          have hosne : enforceCitationsOnAnswer a c ≠ [] := by
            rw [hoS_eq]
            exact joinSep_ne_nil hFSne (fun t ht => (hgS t ht).1)
          have hosne2 : (enforceCitationsOnAnswer a c).isEmpty = false := by
            cases ho : enforceCitationsOnAnswer a c with
            | nil => exact absurd ho hosne
            | cons x t => rfl
          have h2 : enforceCitationsOnAnswer (enforceCitationsOnAnswer a c) c =
              joinSep [' ']
                ((cleanFrags (enforceCitationsOnAnswer a c)).map (procS f)) :=
            enforceCitationsOnAnswer_eq _ hfc hoS hosne2
          have hone : pyStrip (enforceCitationsOnAnswer a c) =
              enforceCitationsOnAnswer a c := by
            rw [hoS_eq]
            exact pyStrip_eq_self (joinSep_head_nonspace hgS) (joinSep_last_nonspace hgS)
          have honne : pyStrip (enforceCitationsOnAnswer a c) ≠ [] := by
            rw [hone]
            exact hosne
          have hcfo : cleanFrags (enforceCitationsOnAnswer a c) =
              (cleanFrags a).map (procS f) := by
            rw [cleanFrags_eq_pySplit honne, hone, hoS_eq]
            exact resplit _ hgS htS hFSne
          rw [h2, hcfo, List.map_map]
          rw [List.map_congr_left
            (fun s _ => show (procS f ∘ procS f) s = procS f s from procS_idem hfd hfne)]
          rw [← hoS_eq]

theorem enforcement_idempotence_witness :
    containsSub noInfoSub
      (enforceCitations "it is fine here. sure".toList "[C1] x".toList) = false ∧
    enforceCitations (enforceCitations "it is fine here. sure".toList "[C1] x".toList)
        "[C1] x".toList =
      enforceCitations "it is fine here. sure".toList "[C1] x".toList :=
  ⟨by decide,
   (enforcement_idempotence "it is fine here. sure".toList "[C1] x".toList
     (by decide) (by decide) (by decide) (by decide)).1⟩
